import Mathlib

/-!
Verification development for the hoplight-vm evaluation core.

The data model and the reducer are embedded from src/vm/src/noun.rs and
src/vm/src/eval.rs.  Modules the crate uses but that are not present under
src/ (the axis selector, the serializer and deserializer, the opcode
constants, math::natural_add, Noun::as_u8 and the BLAKE2b primitive) are
modelled from the specification; each such definition carries a doc comment
saying so.  Machine integers (u8, u64) are modelled as Nat: the tick counter
and cap live far below 2^64 in every statement proved here, and byte values
are produced by reductions modulo 256.
-/

set_option maxHeartbeats 1600000

/-- Byte strings are lists of byte values. -/
abbrev Bytes := List Nat

/-- Embeds enum Noun of noun.rs: a byte atom, a boxed byte-vector atom, or a
cell of two nouns. -/
inductive Noun where
  | byteAtom (b : Nat)
  | atom (bs : Bytes)
  | cell (l r : Noun)
deriving DecidableEq, Repr, Inhabited

/-- Embeds impl PartialEq for Noun of noun.rs: cells compare componentwise,
atoms of the same variant compare by payload, and a ByteAtom compares equal to
an Atom exactly when the vector has length one and holds the same byte. -/
def Noun.eq : Noun → Noun → Bool
  | .cell a b, .cell x y => Noun.eq a x && Noun.eq b y
  | .byteAtom a, .byteAtom x => a == x
  | .atom a, .atom x => a == x
  | .byteAtom a, .atom x => x.length == 1 && x.head? == some a
  | .atom a, .byteAtom x => a.length == 1 && a.head? == some x
  | _, _ => false

/-- Embeds Noun::from_bool: loobean encoding, true is atom 0 and false is
atom 1. -/
def Noun.from_bool (source : Bool) : Noun := .byteAtom (if source then 0 else 1)

/-- Embeds Noun::equal: the loobean of PartialEq equality. -/
def Noun.equal (a other : Noun) : Noun := Noun.from_bool (Noun.eq a other)

/-- Embeds Noun::from_u8. -/
def Noun.from_u8 (x : Nat) : Noun := .byteAtom x

/-- Embeds Noun::is_cell. -/
def Noun.is_cell : Noun → Bool
  | .cell _ _ => true
  | _ => false

/-- Embeds Noun::into_cell (and the borrowing as_cell, which yields the same
pair). -/
def Noun.into_cell : Noun → Option (Noun × Noun)
  | .cell l r => some (l, r)
  | _ => none

/-- Embeds Noun::as_byte of noun.rs, line by line.  The outer none models the
Rust panic: on Noun::Atom(xs) the code first evaluates the slice xs[1..],
which panics when xs is empty (range start 1 out of range for length 0), so
the empty-vector atom never reaches the final line even though that line
(xs.get(0) ... unwrap_or(0)) was written to handle it. -/
def Noun.as_byte : Noun → Option (Option Nat)
  | .byteAtom x => some (some x)
  | .atom xs =>
      if xs.length < 1 then none
      else if (xs.drop 1).any (fun b => b != 0) then some none
      else some (some (xs.headD 0))
  | .cell _ _ => some none

/-- Numeric value of a little-endian byte string. -/
def bytesToNat : Bytes → Nat
  | [] => 0
  | b :: rest => b + 256 * bytesToNat rest

/-- Modelled from the spec: as_small of section 4.1 (eval.rs calls
Noun::as_u8, which the noun.rs under src/ does not contain): succeeds exactly
when the noun is an atom whose numeric value fits in a byte. -/
def Noun.as_u8 : Noun → Option Nat
  | .byteAtom x => some x
  | .atom xs => if bytesToNat xs < 256 then some (bytesToNat xs) else none
  | .cell _ _ => none

/-- Numeric value of an atom; none on a cell.  Spec-level helper used to
state claims about atoms of equal numeric value. -/
def Noun.atomValue : Noun → Option Nat
  | .byteAtom x => some x
  | .atom xs => some (bytesToNat xs)
  | .cell _ _ => none

/-- Little-endian canonical byte string of a natural number (fuel-indexed so
that the kernel can evaluate it; the first argument is the fuel). -/
def natToBytesF : Nat → Nat → Bytes
  | 0, _ => []
  | fuel + 1, v => if v = 0 then [] else (v % 256) :: natToBytesF fuel (v / 256)

/-- Little-endian canonical byte string of a natural number: no trailing zero
byte, the empty string denotes 0. -/
def natToBytes (v : Nat) : Bytes := natToBytesF (v + 1) v

/-- Strip trailing zero bytes, producing the canonical form of section 3.1. -/
def stripZeros (bs : Bytes) : Bytes := (bs.reverse.dropWhile (fun b => b == 0)).reverse

/-- Modelled from the spec: atom_from_bytes of section 4.1 (the constructor
helpers are not in the noun.rs under src/): build an atom from a little-endian
byte string, stripped to canonical form. -/
def atom_from_bytes (bs : Bytes) : Noun := .atom (stripZeros bs)

/-- Modelled from the spec: Noun::from_slice as used by eval.rs for the HASH
result, building an atom from a byte slice (canonicalized per section 4.1). -/
def Noun.from_slice (bs : Bytes) : Noun := atom_from_bytes bs

/-- Embeds enum EvalError of eval.rs. -/
inductive EvalError where
  | Something
  | CellAsIndex
  | IndexOutOfRange
  | NotAnOpcode
  | BadOpcode (n : Nat)
  | BadRecurseArgument
  | BadEqualsArgument
  | BadArgument
  | BadIfCondition
  | TickLimitExceeded
  | AtomicFormula
  | MemoryExceeded
  | StorageCorrupt
deriving DecidableEq, Repr

/-- Embeds enum SerializationError of the serialize module (named in eval.rs;
the module itself is modelled from the spec). -/
inductive SerializationError where
  | OverlongAtom
  | MaximumLengthExceeded
deriving DecidableEq, Repr

/-- Modelled from the spec: math::natural_add (math.rs is not under src/):
the atom of the sum of the numeric values of two atoms; a non-atom operand is
an argument-shape mismatch, BadArgument per section 7. -/
def natural_add (a b : Noun) : Except EvalError Noun :=
  match a.atomValue, b.atomValue with
  | some x, some y => .ok (.atom (natToBytes (x + y)))
  | _, _ => .error .BadArgument

/-- Modelled from the spec: the axis walk of sections 3.3 and 4.2 (axis.rs is
not under src/), fuel-indexed.  Axis 1 is the noun itself, axis 2n the left
leg and 2n+1 the right leg of axis n; axis 0 and any walk that descends into
an atom fail IndexOutOfRange. -/
def axisGetF : Nat → Noun → Nat → Except EvalError Noun
  | 0, _, _ => .error .IndexOutOfRange
  | fuel + 1, n, v =>
    if v = 0 then .error .IndexOutOfRange
    else if v = 1 then .ok n
    else
      match axisGetF fuel n (v / 2) with
      | .error e => .error e
      | .ok (.cell l r) => if v % 2 = 0 then .ok l else .ok r
      | .ok _ => .error .IndexOutOfRange

/-- Modelled from the spec: axis selection at a numeric axis (fuel v + 1 more
than suffices, since the walk halves the axis at every step). -/
def axisGet (n : Noun) (v : Nat) : Except EvalError Noun := axisGetF (v + 1) n v

/-- Modelled from the spec: Noun::axis of sections 3.3 and 4.2 (axis.rs is not
under src/): fails CellAsIndex when the axis noun is not an atom, otherwise
walks by its numeric value. -/
def Noun.axis (subject arg : Noun) : Except EvalError Noun :=
  match arg.atomValue with
  | none => .error .CellAsIndex
  | some v => axisGet subject v

/-- Modelled from the spec: the minimal serialization scheme of section 4.3
(serialize.rs is not under src/): tag byte 0 plus one-byte length plus
canonical atom bytes, or tag byte 1 plus the two serialized children; atoms
whose canonical form does not fit the one-byte length field fail
OverlongAtom.  Atoms are canonicalized first (section 9). -/
def serializeNoun : Noun → Except SerializationError Bytes
  | .byteAtom x => .ok (0 :: (natToBytes x).length :: natToBytes x)
  | .atom xs =>
      let bs := stripZeros xs
      if 256 ≤ bs.length then .error .OverlongAtom else .ok (0 :: bs.length :: bs)
  | .cell l r =>
      match serializeNoun l, serializeNoun r with
      | .ok a, .ok b => .ok (1 :: (a ++ b))
      | .error e, _ => .error e
      | _, .error e => .error e

/-- Modelled from the spec: serialize::serialize with a maximum encoded size,
failing MaximumLengthExceeded beyond it (section 4.3). -/
def serialize (n : Noun) (maxLen : Nat) : Except SerializationError Bytes :=
  match serializeNoun n with
  | .error e => .error e
  | .ok bs => if maxLen < bs.length then .error .MaximumLengthExceeded else .ok bs

/-- Embeds Computation::serialize of eval.rs: serialize with maximum size
1,000,000, mapping OverlongAtom to BadArgument and MaximumLengthExceeded to
MemoryExceeded. -/
def serializeE (noun : Noun) : Except EvalError Bytes :=
  match serialize noun 1000000 with
  | .ok x => .ok x
  | .error .OverlongAtom => .error .BadArgument
  | .error .MaximumLengthExceeded => .error .MemoryExceeded

/-- Modelled from the spec: the deserializer of section 4.3 (deserialize.rs is
not under src/), the inverse of the minimal scheme, fuel-indexed; returns the
decoded noun and the remaining bytes. -/
def deserializeAux : Nat → Bytes → Option (Noun × Bytes)
  | 0, _ => none
  | _ + 1, 0 :: len :: rest =>
      if len ≤ rest.length then some (atom_from_bytes (rest.take len), rest.drop len)
      else none
  | fuel + 1, 1 :: rest =>
      match deserializeAux fuel rest with
      | some (l, r1) =>
          match deserializeAux fuel r1 with
          | some (r, r2) => some (Noun.cell l r, r2)
          | none => none
      | none => none
  | _, _ => none

/-- Modelled from the spec: deserialize of section 4.3: a decode that must
consume the bytes exactly; any failure is surfaced by eval.rs as
StorageCorrupt. -/
def deserialize (bs : Bytes) : Except Unit Noun :=
  match deserializeAux (bs.length + 1) bs with
  | some (n, []) => .ok n
  | _ => .error ()

/-- Modelled from the spec: BLAKE2b with 64-byte output, empty key and
personalization (section 6; the crypto crate is an external collaborator).
Faithful only in arity, determinism and digest length; the byte values are a
stand-in mixing function. -/
def blake2b512 (msg : Bytes) : Bytes :=
  (List.range 64).map (fun i => msg.foldl (fun a b => (a * 31 + b + 7) % 256) (i % 256))

/-- Embeds into_triple of eval.rs. -/
def into_triple (noun : Noun) : Option (Noun × Noun × Noun) :=
  match noun.into_cell with
  | some (a, bc) =>
      match bc.into_cell with
      | some (b, c) => some (a, b, c)
      | none => none
  | none => none

/-- Model of the SideEffectEngine storage substrate: the content-addressed
store as a newest-first association list, together with the chronological
trace of every store call the core has issued (newest first), so that claims
about the keys the core passes to the side effector can be stated. -/
structure Engine where
  storage : List (Bytes × Bytes)
  storeLog : List (Bytes × Bytes)
deriving DecidableEq, Repr

/-- Embeds SideEffectEngine::load: read of the content-addressed store. -/
def Engine.load (e : Engine) (key : Bytes) : Option Bytes :=
  (e.storage.find? (fun kv => kv.fst == key)).map Prod.snd

/-- Embeds SideEffectEngine::store: overwriting write, recorded in the
trace. -/
def Engine.store (e : Engine) (key value : Bytes) : Engine :=
  { storage := (key, value) :: e.storage, storeLog := (key, value) :: e.storeLog }

/-- The empty side-effect engine. -/
def engine0 : Engine := ⟨[], []⟩

/-- Embeds the mutable fields of struct Computation of eval.rs: the tick
counter, the tick cap and the side effector. -/
structure CompState where
  ticks_used : Nat
  tick_cap : Nat
  engine : Engine
deriving DecidableEq, Repr

/-- Result of a reduction: the value or error of eval_on, paired with the
final computation state.  The outer Option (in eval_on below) is only fuel
exhaustion of the embedding, never reached from the entry point. -/
abbrev Out (σ : Type) := Except EvalError Noun × σ

/-- Sequencing that mirrors the try! macro of eval.rs: an error result
propagates immediately, carrying the state at the failure point unchanged. -/
def bindE {σ : Type} (x : Option (Out σ)) (k : Noun → σ → Option (Out σ)) : Option (Out σ) :=
  match x with
  | none => none
  | some (.error e, st) => some (.error e, st)
  | some (.ok v, st) => k v st

/-- Embeds the opcode dispatch of Computation::eval_on (eval.rs lines 70-190).
The recur argument stands for both the recursive self-calls and the
tail-position continue of the source loop; the caller passes the evaluator at
the next fuel. -/
def dispatch (recur : CompState → Noun → Noun → Option (Out CompState))
    (st : CompState) (subject : Noun) (opcode : Nat) (argument : Noun) :
    Option (Out CompState) :=
  match opcode with
  | 0 => some (subject.axis argument, st)
  | 1 => some (.ok argument, st)
  | 2 =>
      match argument.into_cell with
      | some (b, c) =>
          bindE (recur st subject b) (fun b_result st1 =>
            bindE (recur st1 subject c) (fun c_result st2 =>
              recur st2 b_result c_result))
      | none => some (.error .BadRecurseArgument, st)
  | 3 =>
      bindE (recur st subject argument) (fun r st1 =>
        some (.ok (Noun.from_bool r.is_cell), st1))
  | 4 =>
      bindE (recur st subject argument) (fun r st1 =>
        some (natural_add r (Noun.from_u8 1), st1))
  | 5 =>
      bindE (recur st subject argument) (fun r st1 =>
        match r with
        | .cell lhs rhs => some (.ok (Noun.equal lhs rhs), st1)
        | _ => some (.error .BadEqualsArgument, st1))
  | 6 =>
      match into_triple argument with
      | some (b, c, d) =>
          bindE (recur st subject b) (fun condition st1 =>
            match condition.as_u8 with
            | some 0 => recur st1 subject c
            | some 1 => recur st1 subject d
            | _ => some (.error .BadIfCondition, st1))
      | none => some (.error .BadArgument, st)
  | 7 =>
      match argument.into_cell with
      | some (b, c) =>
          bindE (recur st subject b) (fun b_of_x st1 => recur st1 b_of_x c)
      | none => some (.error .BadArgument, st)
  | 8 =>
      match argument.into_cell with
      | some (b, c) =>
          bindE (recur st subject b) (fun subject_prime st1 =>
            recur st1 (Noun.cell subject_prime subject) c)
      | none => some (.error .BadArgument, st)
  | 9 =>
      match argument.into_cell with
      | some (b, c) =>
          bindE (recur st subject c) (fun core st1 =>
            match core.axis b with
            | .error e => some (.error e, st1)
            | .ok inner_formula => recur st1 core inner_formula)
      | none => some (.error .BadArgument, st)
  | 10 =>
      bindE (recur st subject argument) (fun hash_target st1 =>
        match serializeE hash_target with
        | .error e => some (.error e, st1)
        | .ok buffer =>
            some (.ok (Noun.from_slice (blake2b512 buffer)),
              { st1 with ticks_used := st1.ticks_used + (20 + buffer.length) }))
  | 11 =>
      bindE (recur st subject argument) (fun hash_target st1 =>
        match serializeE hash_target with
        | .error e => some (.error e, st1)
        | .ok buffer =>
            some (.ok (Noun.from_bool true),
              { ticks_used := st1.ticks_used + (20 + buffer.length),
                tick_cap := st1.tick_cap,
                engine := st1.engine.store (1 :: blake2b512 buffer) buffer }))
  | 12 =>
      bindE (recur st subject argument) (fun hash st1 =>
        match hash with
        | .atom x =>
            (match st1.engine.load (1 :: x) with
             | some xs =>
                 (match deserialize xs with
                  | .ok decoded => some (.ok (Noun.cell (Noun.from_bool true) decoded), st1)
                  | .error _ => some (.error .StorageCorrupt, st1))
             | none => some (.ok (Noun.from_bool false), st1))
        | _ => some (.error .BadArgument, st1))
  | n => some (.error (.BadOpcode n), st)

/-- Embeds Computation::eval_on of eval.rs.  Each loop iteration first charges
one tick and fails TickLimitExceeded when the counter has reached the cap;
an atomic formula fails AtomicFormula; a cell-headed formula distributes; an
atom head must fit in a byte (NotAnOpcode) and is dispatched.  The fuel
argument only forces termination of the embedding: the entry point supplies
tick_limit + 1, which is always sufficient because every iteration raises the
counter and the counter is bounded by the cap. -/
def eval_on : Nat → CompState → Noun → Noun → Option (Out CompState)
  | 0, _, _, _ => none
  | fuel + 1, st0, subject, formula =>
    let st : CompState := { st0 with ticks_used := st0.ticks_used + 1 }
    if st.tick_cap ≤ st.ticks_used then some (.error .TickLimitExceeded, st)
    else
      match formula.into_cell with
      | none => some (.error .AtomicFormula, st)
      | some (opcode_noun, argument) =>
          if opcode_noun.is_cell then
            bindE (eval_on fuel st subject opcode_noun) (fun lhs st1 =>
              bindE (eval_on fuel st1 subject argument) (fun rhs st2 =>
                some (.ok (Noun.cell lhs rhs), st2)))
          else
            match opcode_noun.as_u8 with
            | none => some (.error .NotAnOpcode, st)
            | some opcode => dispatch (eval_on fuel) st subject opcode argument

/-- Embeds eval of eval.rs, the top-level entry point: the expression must be
a cell (subject, formula), otherwise the error Something; the computation
starts with zero ticks used and the given cap. -/
def eval (expression : Noun) (side_effector : Engine) (tick_limit : Nat) :
    Option (Out CompState) :=
  match expression.into_cell with
  | some (subject, formula) =>
      eval_on (tick_limit + 1) ⟨0, tick_limit, side_effector⟩ subject formula
  | none => some (.error .Something, ⟨0, tick_limit, side_effector⟩)

/-! ## Basic facts about the embedded helpers -/

lemma into_cell_eq_some {n a b : Noun} : n.into_cell = some (a, b) ↔ n = .cell a b := by
  cases n <;> simp [Noun.into_cell]

lemma into_cell_eq_none {n : Noun} : n.into_cell = none ↔ n.is_cell = false := by
  cases n <;> simp [Noun.into_cell, Noun.is_cell]

lemma is_cell_iff {n : Noun} : n.is_cell = true ↔ ∃ a b, n = .cell a b := by
  cases n <;> simp [Noun.is_cell]

lemma axisGetF_error {fuel : Nat} : ∀ {n v e}, axisGetF fuel n v = .error e → e = .IndexOutOfRange := by
  induction fuel with
  | zero =>
      intro n v e h
      unfold axisGetF at h
      exact (Except.error.inj h).symm
  | succ fuel ih =>
      intro n v e h
      unfold axisGetF at h
      split at h
      · exact (Except.error.inj h).symm
      · split at h
        · exact absurd h (by simp)
        · split at h
          · rename_i e2 heq
            have h2 := Except.error.inj h
            subst h2
            exact ih heq
          · rename_i l r heq
            split at h <;> exact absurd h (by simp)
          · exact (Except.error.inj h).symm

lemma axis_error {s a : Noun} {e : EvalError} (h : Noun.axis s a = .error e) :
    e = .CellAsIndex ∨ e = .IndexOutOfRange := by
  unfold Noun.axis at h
  split at h
  · exact Or.inl (Except.error.inj h).symm
  · exact Or.inr (axisGetF_error h)

lemma serializeE_error {n : Noun} {e : EvalError} (h : serializeE n = .error e) :
    e = .BadArgument ∨ e = .MemoryExceeded := by
  unfold serializeE at h
  split at h
  · exact absurd h (by simp)
  · exact Or.inl (Except.error.inj h).symm
  · exact Or.inr (Except.error.inj h).symm

lemma natural_add_error {a b : Noun} {e : EvalError} (h : natural_add a b = .error e) :
    e = .BadArgument := by
  unfold natural_add at h
  split at h
  · exact absurd h (by simp)
  · exact (Except.error.inj h).symm

/-! ## Sequencing lemmas for bindE -/

lemma bindE_err {σ : Type} {x : Option (Out σ)} {k} {e : EvalError} {st : σ}
    (h : x = some (.error e, st)) : bindE x k = some (.error e, st) := by
  rw [h]; rfl

lemma bindE_ok {σ : Type} {x : Option (Out σ)} {k} {v : Noun} {st : σ}
    (h : x = some (.ok v, st)) : bindE x k = k v st := by
  rw [h]; rfl

lemma bindE_some_elim {σ : Type} {x : Option (Out σ)} {k} {out : Out σ}
    (h : bindE x k = some out) :
    (∃ e st, x = some (.error e, st) ∧ out = (.error e, st)) ∨
    (∃ v st, x = some (.ok v, st) ∧ k v st = some out) := by
  cases x with
  | none => exact absurd h (by simp [bindE])
  | some o =>
      obtain ⟨r, st⟩ := o
      cases r with
      | error e =>
          simp only [bindE] at h
          exact Or.inl ⟨e, st, rfl, (Option.some.inj h).symm⟩
      | ok v =>
          simp only [bindE] at h
          exact Or.inr ⟨v, st, rfl, h⟩

lemma bindE_none_elim {σ : Type} {x : Option (Out σ)} {k}
    (h : bindE x k = none) :
    x = none ∨ ∃ v st, x = some (.ok v, st) ∧ k v st = none := by
  cases x with
  | none => exact Or.inl rfl
  | some o =>
      obtain ⟨r, st⟩ := o
      cases r with
      | error e => exact absurd h (by simp [bindE])
      | ok v =>
          simp only [bindE] at h
          exact Or.inr ⟨v, st, rfl, h⟩

/-! ## The basic run invariant: the tick counter only grows, the cap is
fixed, the error Something is never raised by the reducer, and every store
the run adds to the trace is a tagged-hash key with a serialized value. -/

/-- A store-trace entry as STORE_BY_HASH produces it: the key is the tag byte
1 followed by the BLAKE2b digest of the value, and the value is the
serializer output for some noun. -/
def goodLogEntry (kv : Bytes × Bytes) : Prop :=
  kv.1 = 1 :: blake2b512 kv.2 ∧ ∃ n, serializeE n = .ok kv.2

/-- Trace evolution invariant between two engine states. -/
def logOK (e0 e1 : Engine) : Prop :=
  ∀ kv ∈ e1.storeLog, kv ∈ e0.storeLog ∨ goodLogEntry kv

lemma logOK_refl (e : Engine) : logOK e e := fun _ h => Or.inl h

lemma logOK_trans {e0 e1 e2 : Engine} (h1 : logOK e0 e1) (h2 : logOK e1 e2) : logOK e0 e2 := by
  intro kv hkv
  rcases h2 kv hkv with h | h
  · exact h1 kv h
  · exact Or.inr h

lemma logOK_store {e : Engine} {buf : Bytes} {n : Noun} (hn : serializeE n = .ok buf) :
    logOK e (e.store (1 :: blake2b512 buf) buf) := by
  intro kv hkv
  rcases List.mem_cons.mp hkv with h | h
  · exact Or.inr ⟨by rw [h], n, by rw [h]; exact hn⟩
  · exact Or.inl h

/-- The per-run facts threaded through every reduction. -/
def basicP (st : CompState) (out : Out CompState) : Prop :=
  st.ticks_used ≤ out.2.ticks_used ∧ out.2.tick_cap = st.tick_cap ∧
    out.1 ≠ .error .Something ∧ logOK st.engine out.2.engine

lemma basicP_here {st : CompState} {r : Except EvalError Noun}
    (h : r ≠ .error .Something) : basicP st (r, st) :=
  ⟨le_refl _, rfl, h, logOK_refl _⟩

lemma basicP_step {st st1 : CompState} {x : Except EvalError Noun} {out : Out CompState}
    (h1 : basicP st (x, st1)) (h2 : basicP st1 out) : basicP st out :=
  ⟨le_trans h1.1 h2.1, h2.2.1.trans h1.2.1, h2.2.2.1, logOK_trans h1.2.2.2 h2.2.2.2⟩

lemma axis_ne_something {s a : Noun} : Noun.axis s a ≠ .error .Something := by
  intro h
  rcases axis_error h with h2 | h2 <;> exact EvalError.noConfusion h2

lemma natural_add_ne_something {a b : Noun} : natural_add a b ≠ .error .Something := by
  intro h
  exact EvalError.noConfusion (natural_add_error h)

lemma serializeE_ne_something {n : Noun} : serializeE n ≠ .error .Something := by
  intro h
  rcases serializeE_error h with h2 | h2 <;> exact EvalError.noConfusion h2

lemma dispatch_basic {recur : CompState → Noun → Noun → Option (Out CompState)}
    (hrec : ∀ st1 s1 f1 out1, recur st1 s1 f1 = some out1 → basicP st1 out1) :
    ∀ {st s opc arg out}, dispatch recur st s opc arg = some out → basicP st out := by
  intro st s opc arg out h
  unfold dispatch at h
  split at h
  · -- AXIS
    obtain rfl := Option.some.inj h
    exact basicP_here axis_ne_something
  · -- LITERAL
    obtain rfl := Option.some.inj h
    exact basicP_here (by simp)
  · -- RECURSE
    split at h
    · rcases bindE_some_elim h with ⟨e, stE, hx, rfl⟩ | ⟨vb, stb, hx, hk⟩
      · exact hrec _ _ _ _ hx
      · rcases bindE_some_elim hk with ⟨e, stE, hx2, rfl⟩ | ⟨vc, stc, hx2, hk2⟩
        · exact basicP_step (hrec _ _ _ _ hx) (hrec _ _ _ _ hx2)
        · exact basicP_step (hrec _ _ _ _ hx)
            (basicP_step (hrec _ _ _ _ hx2) (hrec _ _ _ _ hk2))
    · obtain rfl := Option.some.inj h
      exact basicP_here (by simp)
  · -- IS_CELL
    rcases bindE_some_elim h with ⟨e, stE, hx, rfl⟩ | ⟨vb, stb, hx, hk⟩
    · exact hrec _ _ _ _ hx
    · obtain rfl := Option.some.inj hk
      exact basicP_step (hrec _ _ _ _ hx) (basicP_here (by simp))
  · -- INCREMENT
    rcases bindE_some_elim h with ⟨e, stE, hx, rfl⟩ | ⟨vb, stb, hx, hk⟩
    · exact hrec _ _ _ _ hx
    · obtain rfl := Option.some.inj hk
      exact basicP_step (hrec _ _ _ _ hx) (basicP_here natural_add_ne_something)
  · -- IS_EQUAL
    rcases bindE_some_elim h with ⟨e, stE, hx, rfl⟩ | ⟨vb, stb, hx, hk⟩
    · exact hrec _ _ _ _ hx
    · split at hk <;>
        · obtain rfl := Option.some.inj hk
          exact basicP_step (hrec _ _ _ _ hx) (basicP_here (by simp))
  · -- IF
    split at h
    · rcases bindE_some_elim h with ⟨e, stE, hx, rfl⟩ | ⟨vb, stb, hx, hk⟩
      · exact hrec _ _ _ _ hx
      · split at hk
        · exact basicP_step (hrec _ _ _ _ hx) (hrec _ _ _ _ hk)
        · exact basicP_step (hrec _ _ _ _ hx) (hrec _ _ _ _ hk)
        · obtain rfl := Option.some.inj hk
          exact basicP_step (hrec _ _ _ _ hx) (basicP_here (by simp))
    · obtain rfl := Option.some.inj h
      exact basicP_here (by simp)
  · -- COMPOSE
    split at h
    · rcases bindE_some_elim h with ⟨e, stE, hx, rfl⟩ | ⟨vb, stb, hx, hk⟩
      · exact hrec _ _ _ _ hx
      · exact basicP_step (hrec _ _ _ _ hx) (hrec _ _ _ _ hk)
    · obtain rfl := Option.some.inj h
      exact basicP_here (by simp)
  · -- DEFINE
    split at h
    · rcases bindE_some_elim h with ⟨e, stE, hx, rfl⟩ | ⟨vb, stb, hx, hk⟩
      · exact hrec _ _ _ _ hx
      · exact basicP_step (hrec _ _ _ _ hx) (hrec _ _ _ _ hk)
    · obtain rfl := Option.some.inj h
      exact basicP_here (by simp)
  · -- CALL
    split at h
    · rcases bindE_some_elim h with ⟨e, stE, hx, rfl⟩ | ⟨vb, stb, hx, hk⟩
      · exact hrec _ _ _ _ hx
      · split at hk
        · rename_i e heq
          obtain rfl := Option.some.inj hk
          refine basicP_step (hrec _ _ _ _ hx) (basicP_here ?_)
          intro h2
          have h3 := Except.error.inj h2
          rw [h3] at heq
          exact axis_ne_something heq
        · exact basicP_step (hrec _ _ _ _ hx) (hrec _ _ _ _ hk)
    · obtain rfl := Option.some.inj h
      exact basicP_here (by simp)
  · -- HASH
    rcases bindE_some_elim h with ⟨e, stE, hx, rfl⟩ | ⟨vb, stb, hx, hk⟩
    · exact hrec _ _ _ _ hx
    · split at hk
      · rename_i e heq
        obtain rfl := Option.some.inj hk
        refine basicP_step (hrec _ _ _ _ hx) (basicP_here ?_)
        intro h2
        have h3 := Except.error.inj h2
        rw [h3] at heq
        exact serializeE_ne_something heq
      · obtain rfl := Option.some.inj hk
        exact basicP_step (hrec _ _ _ _ hx)
          ⟨Nat.le_add_right _ _, rfl, by simp, logOK_refl _⟩
  · -- STORE_BY_HASH
    rcases bindE_some_elim h with ⟨e, stE, hx, rfl⟩ | ⟨vb, stb, hx, hk⟩
    · exact hrec _ _ _ _ hx
    · split at hk
      · rename_i e heq
        obtain rfl := Option.some.inj hk
        refine basicP_step (hrec _ _ _ _ hx) (basicP_here ?_)
        intro h2
        have h3 := Except.error.inj h2
        rw [h3] at heq
        exact serializeE_ne_something heq
      · rename_i buffer heq
        obtain rfl := Option.some.inj hk
        exact basicP_step (hrec _ _ _ _ hx)
          ⟨Nat.le_add_right _ _, rfl, by simp, logOK_store heq⟩
  · -- RETRIEVE_BY_HASH
    rcases bindE_some_elim h with ⟨e, stE, hx, rfl⟩ | ⟨vb, stb, hx, hk⟩
    · exact hrec _ _ _ _ hx
    · split at hk
      · split at hk
        · split at hk <;>
            · obtain rfl := Option.some.inj hk
              exact basicP_step (hrec _ _ _ _ hx) (basicP_here (by simp))
        · obtain rfl := Option.some.inj hk
          exact basicP_step (hrec _ _ _ _ hx) (basicP_here (by simp))
      · obtain rfl := Option.some.inj hk
        exact basicP_step (hrec _ _ _ _ hx) (basicP_here (by simp))
  · -- unassigned opcode
    obtain rfl := Option.some.inj h
    exact basicP_here (by simp)

lemma eval_on_basic : ∀ {fuel st0 s f out}, eval_on fuel st0 s f = some out →
    st0.ticks_used < out.2.ticks_used ∧ out.2.tick_cap = st0.tick_cap ∧
      out.1 ≠ .error .Something ∧ logOK st0.engine out.2.engine := by
  intro fuel
  induction fuel with
  | zero =>
      intro st0 s f out h
      exact absurd h (by simp [eval_on])
  | succ fuel ih =>
      intro st0 s f out h
      have ihB : ∀ st1 s1 f1 out1, eval_on fuel st1 s1 f1 = some out1 → basicP st1 out1 := by
        intro st1 s1 f1 out1 h1
        obtain ⟨a, b, c, d⟩ := ih h1
        exact ⟨le_of_lt a, b, c, d⟩
      have bump : basicP {st0 with ticks_used := st0.ticks_used + 1} out →
          st0.ticks_used < out.2.ticks_used ∧ out.2.tick_cap = st0.tick_cap ∧
            out.1 ≠ .error .Something ∧ logOK st0.engine out.2.engine := by
        intro hb
        exact ⟨Nat.lt_of_lt_of_le (Nat.lt_succ_self _) hb.1, hb.2.1, hb.2.2.1, hb.2.2.2⟩
      simp only [eval_on] at h
      split at h
      · obtain rfl := Option.some.inj h
        exact bump (basicP_here (by simp))
      · split at h
        · obtain rfl := Option.some.inj h
          exact bump (basicP_here (by simp))
        · split at h
          · rcases bindE_some_elim h with ⟨e, stE, hx, rfl⟩ | ⟨vb, stb, hx, hk⟩
            · exact bump (ihB _ _ _ _ hx)
            · rcases bindE_some_elim hk with ⟨e, stE, hx2, rfl⟩ | ⟨vc, stc, hx2, hk2⟩
              · exact bump (basicP_step (ihB _ _ _ _ hx) (ihB _ _ _ _ hx2))
              · obtain rfl := Option.some.inj hk2
                exact bump (basicP_step (ihB _ _ _ _ hx)
                  (basicP_step (ihB _ _ _ _ hx2) (basicP_here (by simp))))
          · split at h
            · obtain rfl := Option.some.inj h
              exact bump (basicP_here (by simp))
            · exact bump (dispatch_basic ihB h)

/-! ## Fuel is irrelevant: more fuel preserves results, and the fuel the
entry point supplies always suffices. -/

lemma dispatch_mono {recur1 recur2 : CompState → Noun → Noun → Option (Out CompState)}
    (hrec : ∀ st1 s1 f1 out1, recur1 st1 s1 f1 = some out1 → recur2 st1 s1 f1 = some out1) :
    ∀ {st s opc arg out}, dispatch recur1 st s opc arg = some out →
      dispatch recur2 st s opc arg = some out := by
  intro st s opc arg out h
  unfold dispatch at h ⊢
  split at h
  · exact h
  · exact h
  · -- RECURSE
    split at h
    · rcases bindE_some_elim h with ⟨e, stE, hx, rfl⟩ | ⟨vb, stb, hx, hk⟩
      · rw [bindE_err (hrec _ _ _ _ hx)]
      · simp only [bindE_ok (hrec _ _ _ _ hx)]
        rcases bindE_some_elim hk with ⟨e, stE, hx2, rfl⟩ | ⟨vc, stc, hx2, hk2⟩
        · rw [bindE_err (hrec _ _ _ _ hx2)]
        · simp only [bindE_ok (hrec _ _ _ _ hx2)]
          exact hrec _ _ _ _ hk2
    · exact h
  · -- IS_CELL
    rcases bindE_some_elim h with ⟨e, stE, hx, rfl⟩ | ⟨vb, stb, hx, hk⟩
    · rw [bindE_err (hrec _ _ _ _ hx)]
    · simp only [bindE_ok (hrec _ _ _ _ hx)]
      exact hk
  · -- INCREMENT
    rcases bindE_some_elim h with ⟨e, stE, hx, rfl⟩ | ⟨vb, stb, hx, hk⟩
    · rw [bindE_err (hrec _ _ _ _ hx)]
    · simp only [bindE_ok (hrec _ _ _ _ hx)]
      exact hk
  · -- IS_EQUAL
    rcases bindE_some_elim h with ⟨e, stE, hx, rfl⟩ | ⟨vb, stb, hx, hk⟩
    · rw [bindE_err (hrec _ _ _ _ hx)]
    · simp only [bindE_ok (hrec _ _ _ _ hx)]
      exact hk
  · -- IF
    split at h
    · rcases bindE_some_elim h with ⟨e, stE, hx, rfl⟩ | ⟨vb, stb, hx, hk⟩
      · rw [bindE_err (hrec _ _ _ _ hx)]
      · simp only [bindE_ok (hrec _ _ _ _ hx)]
        split at hk
        · exact hrec _ _ _ _ hk
        · exact hrec _ _ _ _ hk
        · exact hk
    · exact h
  · -- COMPOSE
    split at h
    · rcases bindE_some_elim h with ⟨e, stE, hx, rfl⟩ | ⟨vb, stb, hx, hk⟩
      · rw [bindE_err (hrec _ _ _ _ hx)]
      · simp only [bindE_ok (hrec _ _ _ _ hx)]
        exact hrec _ _ _ _ hk
    · exact h
  · -- DEFINE
    split at h
    · rcases bindE_some_elim h with ⟨e, stE, hx, rfl⟩ | ⟨vb, stb, hx, hk⟩
      · rw [bindE_err (hrec _ _ _ _ hx)]
      · simp only [bindE_ok (hrec _ _ _ _ hx)]
        exact hrec _ _ _ _ hk
    · exact h
  · -- CALL
    split at h
    · rcases bindE_some_elim h with ⟨e, stE, hx, rfl⟩ | ⟨vb, stb, hx, hk⟩
      · rw [bindE_err (hrec _ _ _ _ hx)]
      · simp only [bindE_ok (hrec _ _ _ _ hx)]
        split at hk
        · exact hk
        · exact hrec _ _ _ _ hk
    · exact h
  · -- HASH
    rcases bindE_some_elim h with ⟨e, stE, hx, rfl⟩ | ⟨vb, stb, hx, hk⟩
    · rw [bindE_err (hrec _ _ _ _ hx)]
    · simp only [bindE_ok (hrec _ _ _ _ hx)]
      exact hk
  · -- STORE_BY_HASH
    rcases bindE_some_elim h with ⟨e, stE, hx, rfl⟩ | ⟨vb, stb, hx, hk⟩
    · rw [bindE_err (hrec _ _ _ _ hx)]
    · simp only [bindE_ok (hrec _ _ _ _ hx)]
      exact hk
  · -- RETRIEVE_BY_HASH
    rcases bindE_some_elim h with ⟨e, stE, hx, rfl⟩ | ⟨vb, stb, hx, hk⟩
    · rw [bindE_err (hrec _ _ _ _ hx)]
    · simp only [bindE_ok (hrec _ _ _ _ hx)]
      exact hk
  · exact h

lemma eval_on_mono : ∀ {fuel1 fuel2 : Nat}, fuel1 ≤ fuel2 → ∀ {st s f out},
    eval_on fuel1 st s f = some out → eval_on fuel2 st s f = some out := by
  intro fuel1
  induction fuel1 with
  | zero =>
      intro fuel2 hle st s f out h
      exact absurd h (by simp [eval_on])
  | succ fuel1 ih =>
      intro fuel2 hle st s f out h
      obtain ⟨fuel2, rfl⟩ : ∃ n, fuel2 = n + 1 := ⟨fuel2 - 1, by omega⟩
      have hrec : ∀ st1 s1 f1 out1, eval_on fuel1 st1 s1 f1 = some out1 →
          eval_on fuel2 st1 s1 f1 = some out1 :=
        fun st1 s1 f1 out1 h1 => ih (by omega) h1
      simp only [eval_on] at h ⊢
      split at h
      · rename_i hc
        rw [if_pos hc]
        exact h
      · rename_i hc
        rw [if_neg hc]
        split at h
        · exact h
        · split at h
          · rename_i hcell
            rw [if_pos hcell]
            rcases bindE_some_elim h with ⟨e, stE, hx, rfl⟩ | ⟨vb, stb, hx, hk⟩
            · rw [bindE_err (hrec _ _ _ _ hx)]
            · simp only [bindE_ok (hrec _ _ _ _ hx)]
              rcases bindE_some_elim hk with ⟨e, stE, hx2, rfl⟩ | ⟨vc, stc, hx2, hk2⟩
              · rw [bindE_err (hrec _ _ _ _ hx2)]
              · simp only [bindE_ok (hrec _ _ _ _ hx2)]
                exact hk2
          · rename_i hcell
            rw [if_neg hcell]
            split at h
            · exact h
            · exact dispatch_mono hrec h

lemma eval_on_agree {fuel1 fuel2 : Nat} {st s f out1 out2}
    (h1 : eval_on fuel1 st s f = some out1) (h2 : eval_on fuel2 st s f = some out2) :
    out1 = out2 := by
  rcases le_total fuel1 fuel2 with hle | hle
  · exact Option.some.inj ((eval_on_mono hle h1).symm.trans h2)
  · exact (Option.some.inj ((eval_on_mono hle h2).symm.trans h1)).symm

lemma dispatch_total {recur : CompState → Noun → Noun → Option (Out CompState)}
    {st s opc arg}
    (hrecT : ∀ st2 s2 f2, st2.tick_cap = st.tick_cap → st.ticks_used ≤ st2.ticks_used →
        recur st2 s2 f2 ≠ none)
    (hrecB : ∀ st2 s2 f2 out2, recur st2 s2 f2 = some out2 → basicP st2 out2) :
    dispatch recur st s opc arg ≠ none := by
  intro h
  unfold dispatch at h
  split at h
  · exact Option.noConfusion h
  · exact Option.noConfusion h
  · -- RECURSE
    split at h
    · rcases bindE_none_elim h with hnone | ⟨vb, stb, hx, hk⟩
      · exact hrecT _ _ _ rfl (le_refl _) hnone
      · have hb := hrecB _ _ _ _ hx
        rcases bindE_none_elim hk with hnone2 | ⟨vc, stc, hx2, hk2⟩
        · exact hrecT _ _ _ hb.2.1 hb.1 hnone2
        · have hb2 := hrecB _ _ _ _ hx2
          exact hrecT _ _ _ (hb2.2.1.trans hb.2.1) (le_trans hb.1 hb2.1) hk2
    · exact Option.noConfusion h
  · -- IS_CELL
    rcases bindE_none_elim h with hnone | ⟨vb, stb, hx, hk⟩
    · exact hrecT _ _ _ rfl (le_refl _) hnone
    · exact Option.noConfusion hk
  · -- INCREMENT
    rcases bindE_none_elim h with hnone | ⟨vb, stb, hx, hk⟩
    · exact hrecT _ _ _ rfl (le_refl _) hnone
    · exact Option.noConfusion hk
  · -- IS_EQUAL
    rcases bindE_none_elim h with hnone | ⟨vb, stb, hx, hk⟩
    · exact hrecT _ _ _ rfl (le_refl _) hnone
    · split at hk <;> exact Option.noConfusion hk
  · -- IF
    split at h
    · rcases bindE_none_elim h with hnone | ⟨vb, stb, hx, hk⟩
      · exact hrecT _ _ _ rfl (le_refl _) hnone
      · have hb := hrecB _ _ _ _ hx
        split at hk
        · exact hrecT _ _ _ hb.2.1 hb.1 hk
        · exact hrecT _ _ _ hb.2.1 hb.1 hk
        · exact Option.noConfusion hk
    · exact Option.noConfusion h
  · -- COMPOSE
    split at h
    · rcases bindE_none_elim h with hnone | ⟨vb, stb, hx, hk⟩
      · exact hrecT _ _ _ rfl (le_refl _) hnone
      · have hb := hrecB _ _ _ _ hx
        exact hrecT _ _ _ hb.2.1 hb.1 hk
    · exact Option.noConfusion h
  · -- DEFINE
    split at h
    · rcases bindE_none_elim h with hnone | ⟨vb, stb, hx, hk⟩
      · exact hrecT _ _ _ rfl (le_refl _) hnone
      · have hb := hrecB _ _ _ _ hx
        exact hrecT _ _ _ hb.2.1 hb.1 hk
    · exact Option.noConfusion h
  · -- CALL
    split at h
    · rcases bindE_none_elim h with hnone | ⟨vb, stb, hx, hk⟩
      · exact hrecT _ _ _ rfl (le_refl _) hnone
      · have hb := hrecB _ _ _ _ hx
        split at hk
        · exact Option.noConfusion hk
        · exact hrecT _ _ _ hb.2.1 hb.1 hk
    · exact Option.noConfusion h
  · -- HASH
    rcases bindE_none_elim h with hnone | ⟨vb, stb, hx, hk⟩
    · exact hrecT _ _ _ rfl (le_refl _) hnone
    · split at hk <;> exact Option.noConfusion hk
  · -- STORE_BY_HASH
    rcases bindE_none_elim h with hnone | ⟨vb, stb, hx, hk⟩
    · exact hrecT _ _ _ rfl (le_refl _) hnone
    · split at hk <;> exact Option.noConfusion hk
  · -- RETRIEVE_BY_HASH
    rcases bindE_none_elim h with hnone | ⟨vb, stb, hx, hk⟩
    · exact hrecT _ _ _ rfl (le_refl _) hnone
    · split at hk
      · split at hk
        · split at hk <;> exact Option.noConfusion hk
        · exact Option.noConfusion hk
      · exact Option.noConfusion hk
  · exact Option.noConfusion h

lemma eval_on_total : ∀ {fuel : Nat} {st : CompState} {s f : Noun}, 1 ≤ fuel →
    st.tick_cap ≤ fuel + st.ticks_used → eval_on fuel st s f ≠ none := by
  intro fuel
  induction fuel with
  | zero =>
      intro st s f h1 _
      exact absurd h1 (by omega)
  | succ fuel ih =>
      intro st s f _ h2 h
      simp only [eval_on] at h
      split at h
      · exact Option.noConfusion h
      · rename_i hcap
        have hcap2 : ¬ (st.tick_cap ≤ st.ticks_used + 1) := hcap
        have hfuel : 1 ≤ fuel := by omega
        split at h
        · exact Option.noConfusion h
        · split at h
          · rcases bindE_none_elim h with hnone | ⟨vb, stb, hx, hk⟩
            · refine absurd hnone (ih hfuel ?_)
              show st.tick_cap ≤ fuel + (st.ticks_used + 1)
              omega
            · obtain ⟨ht, hcapeq, _, _⟩ := eval_on_basic hx
              rcases bindE_none_elim hk with hnone2 | ⟨vc, stc, hx2, hk2⟩
              · refine ih hfuel ?_ hnone2
                have ht2 : st.ticks_used + 1 < stb.ticks_used := ht
                have hce : stb.tick_cap = st.tick_cap := hcapeq
                omega
              · exact Option.noConfusion hk2
          · split at h
            · exact Option.noConfusion h
            · refine dispatch_total ?_ ?_ h
              · intro st2 s2 f2 hcapeq hticks
                refine ih hfuel ?_
                have hce : st2.tick_cap = st.tick_cap := hcapeq
                have ht2 : st.ticks_used + 1 ≤ st2.ticks_used := hticks
                omega
              · intro st2 s2 f2 out2 h2x
                obtain ⟨a, b, c, d⟩ := eval_on_basic h2x
                exact ⟨le_of_lt a, b, c, d⟩

lemma eval_total {e : Noun} {σ : Engine} {L : Nat} : eval e σ L ≠ none := by
  unfold eval
  split
  · exact eval_on_total (by omega) (show L ≤ L + 1 + 0 by omega)
  · simp

/-! ## Step equations for the dispatch table at constructor-shaped arguments -/

lemma into_triple_eq_some {n a b c : Noun} :
    into_triple n = some (a, b, c) ↔ n = .cell a (.cell b c) := by
  cases n with
  | byteAtom x => simp [into_triple, Noun.into_cell]
  | atom xs => simp [into_triple, Noun.into_cell]
  | cell l r =>
      cases r with
      | byteAtom x => simp [into_triple, Noun.into_cell]
      | atom xs => simp [into_triple, Noun.into_cell]
      | cell rl rr => simp [into_triple, Noun.into_cell]

section DispatchSteps

variable {recur : CompState → Noun → Noun → Option (Out CompState)}
variable {st : CompState} {s b c d argument : Noun}

lemma dispatch_axis : dispatch recur st s 0 argument = some (s.axis argument, st) := rfl

lemma dispatch_literal : dispatch recur st s 1 argument = some (.ok argument, st) := rfl

lemma dispatch_recurse :
    dispatch recur st s 2 (.cell b c) =
      bindE (recur st s b) (fun b_result st1 =>
        bindE (recur st1 s c) (fun c_result st2 => recur st2 b_result c_result)) := rfl

lemma dispatch_is_cell :
    dispatch recur st s 3 argument =
      bindE (recur st s argument) (fun r st1 =>
        some (.ok (Noun.from_bool r.is_cell), st1)) := rfl

lemma dispatch_increment :
    dispatch recur st s 4 argument =
      bindE (recur st s argument) (fun r st1 =>
        some (natural_add r (Noun.from_u8 1), st1)) := rfl

lemma dispatch_is_equal :
    dispatch recur st s 5 argument =
      bindE (recur st s argument) (fun r st1 =>
        match r with
        | .cell lhs rhs => some (.ok (Noun.equal lhs rhs), st1)
        | _ => some (.error .BadEqualsArgument, st1)) := rfl

lemma dispatch_if :
    dispatch recur st s 6 (.cell b (.cell c d)) =
      bindE (recur st s b) (fun condition st1 =>
        match condition.as_u8 with
        | some 0 => recur st1 s c
        | some 1 => recur st1 s d
        | _ => some (.error .BadIfCondition, st1)) := rfl

lemma dispatch_compose :
    dispatch recur st s 7 (.cell b c) =
      bindE (recur st s b) (fun b_of_x st1 => recur st1 b_of_x c) := rfl

lemma dispatch_define :
    dispatch recur st s 8 (.cell b c) =
      bindE (recur st s b) (fun subject_prime st1 =>
        recur st1 (Noun.cell subject_prime s) c) := rfl

lemma dispatch_call :
    dispatch recur st s 9 (.cell b c) =
      bindE (recur st s c) (fun core st1 =>
        match core.axis b with
        | .error e => some (.error e, st1)
        | .ok inner_formula => recur st1 core inner_formula) := rfl

lemma dispatch_hash :
    dispatch recur st s 10 argument =
      bindE (recur st s argument) (fun hash_target st1 =>
        match serializeE hash_target with
        | .error e => some (.error e, st1)
        | .ok buffer =>
            some (.ok (Noun.from_slice (blake2b512 buffer)),
              { st1 with ticks_used := st1.ticks_used + (20 + buffer.length) })) := rfl

lemma dispatch_store :
    dispatch recur st s 11 argument =
      bindE (recur st s argument) (fun hash_target st1 =>
        match serializeE hash_target with
        | .error e => some (.error e, st1)
        | .ok buffer =>
            some (.ok (Noun.from_bool true),
              { ticks_used := st1.ticks_used + (20 + buffer.length),
                tick_cap := st1.tick_cap,
                engine := st1.engine.store (1 :: blake2b512 buffer) buffer })) := rfl

lemma dispatch_retrieve :
    dispatch recur st s 12 argument =
      bindE (recur st s argument) (fun hash st1 =>
        match hash with
        | .atom x =>
            (match st1.engine.load (1 :: x) with
             | some xs =>
                 (match deserialize xs with
                  | .ok decoded => some (.ok (Noun.cell (Noun.from_bool true) decoded), st1)
                  | .error _ => some (.error .StorageCorrupt, st1))
             | none => some (.ok (Noun.from_bool false), st1))
        | _ => some (.error .BadArgument, st1)) := rfl

end DispatchSteps

lemma out_inj {r1 r2 : Except EvalError Noun} {s1 s2 : CompState}
    (h : some ((r1, s1) : Out CompState) = some (r2, s2)) : r1 = r2 ∧ s1 = s2 := by
  have h2 := Option.some.inj h
  exact ⟨congrArg Prod.fst h2, congrArg Prod.snd h2⟩

/-! ## Cap transfer: a successful run replays from any starting counter and
cap, either reaching the same value and engine with the same tick spend, or
stopping with TickLimitExceeded when the new cap is at most the replayed
counter. -/

lemma dispatch_transfer {recur : CompState → Noun → Noun → Option (Out CompState)}
    (hIH : ∀ st' s' f' r' st1', recur st' s' f' = some (.ok r', st1') → ∀ t2 k,
        recur ⟨t2, k, st'.engine⟩ s' f' =
            some (.ok r', ⟨t2 + (st1'.ticks_used - st'.ticks_used), k, st1'.engine⟩) ∨
          (k ≤ t2 + (st1'.ticks_used - st'.ticks_used) ∧
            ∃ st2, recur ⟨t2, k, st'.engine⟩ s' f' = some (.error .TickLimitExceeded, st2)))
    (hB : ∀ st' s' f' out', recur st' s' f' = some out' → basicP st' out')
    {st s opc arg r st1}
    (h : dispatch recur st s opc arg = some (.ok r, st1)) :
    ∀ t2 k,
      dispatch recur ⟨t2, k, st.engine⟩ s opc arg =
          some (.ok r, ⟨t2 + (st1.ticks_used - st.ticks_used), k, st1.engine⟩) ∨
        (k ≤ t2 + (st1.ticks_used - st.ticks_used) ∧
          ∃ st2, dispatch recur ⟨t2, k, st.engine⟩ s opc arg =
            some (.error .TickLimitExceeded, st2)) := by
  intro t2 k
  unfold dispatch at h
  split at h
  · -- AXIS
    obtain ⟨hr, hst⟩ := out_inj h
    subst hst
    left
    rw [dispatch_axis, hr]
    simp
  · -- LITERAL
    obtain ⟨hr, hst⟩ := out_inj h
    subst hst
    left
    rw [dispatch_literal, hr]
    simp
  · -- RECURSE
    split at h
    · rename_i b c heq
      obtain rfl := into_cell_eq_some.mp heq
      rcases bindE_some_elim h with ⟨e, stE, hx, hpair⟩ | ⟨vb, stb, hx, hk⟩
      · exact absurd hpair (by simp)
      · rcases bindE_some_elim hk with ⟨e, stE, hx2, hpair⟩ | ⟨vc, stc, hx2, hk2⟩
        · exact absurd hpair (by simp)
        · have e1 : st.ticks_used ≤ stb.ticks_used := (hB _ _ _ _ hx).1
          have e2 : stb.ticks_used ≤ stc.ticks_used := (hB _ _ _ _ hx2).1
          have e3 : stc.ticks_used ≤ st1.ticks_used := (hB _ _ _ _ hk2).1
          rcases hIH _ _ _ _ _ hx t2 k with hok1 | ⟨hbnd1, st2, htle1⟩
          · rcases hIH _ _ _ _ _ hx2 (t2 + (stb.ticks_used - st.ticks_used)) k with
              hok2 | ⟨hbnd2, st2, htle2⟩
            · rcases hIH _ _ _ _ _ hk2
                (t2 + (stb.ticks_used - st.ticks_used) + (stc.ticks_used - stb.ticks_used)) k with
                hok3 | ⟨hbnd3, st2, htle3⟩
              · left
                rw [dispatch_recurse]
                simp only [bindE_ok hok1, bindE_ok hok2]
                have harith : t2 + (stb.ticks_used - st.ticks_used) +
                    (stc.ticks_used - stb.ticks_used) + (st1.ticks_used - stc.ticks_used) =
                    t2 + (st1.ticks_used - st.ticks_used) := by omega
                rw [harith] at hok3
                exact hok3
              · right
                refine ⟨by omega, st2, ?_⟩
                rw [dispatch_recurse]
                simp only [bindE_ok hok1, bindE_ok hok2]
                exact htle3
            · right
              refine ⟨by omega, st2, ?_⟩
              rw [dispatch_recurse]
              simp only [bindE_ok hok1]
              exact bindE_err htle2
          · right
            refine ⟨by omega, st2, ?_⟩
            rw [dispatch_recurse]
            exact bindE_err htle1
    · exact absurd (Option.some.inj h) (by simp)
  · -- IS_CELL
    rcases bindE_some_elim h with ⟨e, stE, hx, hpair⟩ | ⟨vb, stb, hx, hk⟩
    · exact absurd hpair (by simp)
    · obtain ⟨hr, hst⟩ := out_inj hk
      subst hst
      rcases hIH _ _ _ _ _ hx t2 k with hok1 | ⟨hbnd1, st2, htle1⟩
      · left
        rw [dispatch_is_cell]
        simp only [bindE_ok hok1]
        rw [hr]
      · right
        exact ⟨hbnd1, st2, by rw [dispatch_is_cell]; exact bindE_err htle1⟩
  · -- INCREMENT
    rcases bindE_some_elim h with ⟨e, stE, hx, hpair⟩ | ⟨vb, stb, hx, hk⟩
    · exact absurd hpair (by simp)
    · obtain ⟨hr, hst⟩ := out_inj hk
      subst hst
      rcases hIH _ _ _ _ _ hx t2 k with hok1 | ⟨hbnd1, st2, htle1⟩
      · left
        rw [dispatch_increment]
        simp only [bindE_ok hok1]
        rw [hr]
      · right
        exact ⟨hbnd1, st2, by rw [dispatch_increment]; exact bindE_err htle1⟩
  · -- IS_EQUAL
    rcases bindE_some_elim h with ⟨e, stE, hx, hpair⟩ | ⟨vb, stb, hx, hk⟩
    · exact absurd hpair (by simp)
    · split at hk
      · rename_i lhs rhs
        obtain ⟨hr, hst⟩ := out_inj hk
        subst hst
        rcases hIH _ _ _ _ _ hx t2 k with hok1 | ⟨hbnd1, st2, htle1⟩
        · left
          rw [dispatch_is_equal]
          simp only [bindE_ok hok1]
          rw [hr]
        · right
          exact ⟨hbnd1, st2, by rw [dispatch_is_equal]; exact bindE_err htle1⟩
      · exact absurd (Option.some.inj hk) (by simp)
  · -- IF
    split at h
    · rename_i b c d heq
      obtain rfl := into_triple_eq_some.mp heq
      rcases bindE_some_elim h with ⟨e, stE, hx, hpair⟩ | ⟨vb, stb, hx, hk⟩
      · exact absurd hpair (by simp)
      · have e1 : st.ticks_used ≤ stb.ticks_used := (hB _ _ _ _ hx).1
        split at hk
        · rename_i hcond
          have e2 : stb.ticks_used ≤ st1.ticks_used := (hB _ _ _ _ hk).1
          rcases hIH _ _ _ _ _ hx t2 k with hok1 | ⟨hbnd1, st2, htle1⟩
          · rcases hIH _ _ _ _ _ hk (t2 + (stb.ticks_used - st.ticks_used)) k with
              hok2 | ⟨hbnd2, st2, htle2⟩
            · left
              rw [dispatch_if]
              simp only [bindE_ok hok1, hcond]
              have harith : t2 + (stb.ticks_used - st.ticks_used) +
                  (st1.ticks_used - stb.ticks_used) = t2 + (st1.ticks_used - st.ticks_used) := by
                omega
              rw [harith] at hok2
              exact hok2
            · right
              refine ⟨by omega, st2, ?_⟩
              rw [dispatch_if]
              simp only [bindE_ok hok1, hcond]
              exact htle2
          · right
            refine ⟨by omega, st2, ?_⟩
            rw [dispatch_if]
            exact bindE_err htle1
        · rename_i hcond
          have e2 : stb.ticks_used ≤ st1.ticks_used := (hB _ _ _ _ hk).1
          rcases hIH _ _ _ _ _ hx t2 k with hok1 | ⟨hbnd1, st2, htle1⟩
          · rcases hIH _ _ _ _ _ hk (t2 + (stb.ticks_used - st.ticks_used)) k with
              hok2 | ⟨hbnd2, st2, htle2⟩
            · left
              rw [dispatch_if]
              simp only [bindE_ok hok1, hcond]
              have harith : t2 + (stb.ticks_used - st.ticks_used) +
                  (st1.ticks_used - stb.ticks_used) = t2 + (st1.ticks_used - st.ticks_used) := by
                omega
              rw [harith] at hok2
              exact hok2
            · right
              refine ⟨by omega, st2, ?_⟩
              rw [dispatch_if]
              simp only [bindE_ok hok1, hcond]
              exact htle2
          · right
            refine ⟨by omega, st2, ?_⟩
            rw [dispatch_if]
            exact bindE_err htle1
        · exact absurd (Option.some.inj hk) (by simp)
    · exact absurd (Option.some.inj h) (by simp)
  · -- COMPOSE
    split at h
    · rename_i b c heq
      obtain rfl := into_cell_eq_some.mp heq
      rcases bindE_some_elim h with ⟨e, stE, hx, hpair⟩ | ⟨vb, stb, hx, hk⟩
      · exact absurd hpair (by simp)
      · have e1 : st.ticks_used ≤ stb.ticks_used := (hB _ _ _ _ hx).1
        have e2 : stb.ticks_used ≤ st1.ticks_used := (hB _ _ _ _ hk).1
        rcases hIH _ _ _ _ _ hx t2 k with hok1 | ⟨hbnd1, st2, htle1⟩
        · rcases hIH _ _ _ _ _ hk (t2 + (stb.ticks_used - st.ticks_used)) k with
            hok2 | ⟨hbnd2, st2, htle2⟩
          · left
            rw [dispatch_compose]
            simp only [bindE_ok hok1]
            have harith : t2 + (stb.ticks_used - st.ticks_used) +
                (st1.ticks_used - stb.ticks_used) = t2 + (st1.ticks_used - st.ticks_used) := by
              omega
            rw [harith] at hok2
            exact hok2
          · right
            refine ⟨by omega, st2, ?_⟩
            rw [dispatch_compose]
            simp only [bindE_ok hok1]
            exact htle2
        · right
          refine ⟨by omega, st2, ?_⟩
          rw [dispatch_compose]
          exact bindE_err htle1
    · exact absurd (Option.some.inj h) (by simp)
  · -- DEFINE
    split at h
    · rename_i b c heq
      obtain rfl := into_cell_eq_some.mp heq
      rcases bindE_some_elim h with ⟨e, stE, hx, hpair⟩ | ⟨vb, stb, hx, hk⟩
      · exact absurd hpair (by simp)
      · have e1 : st.ticks_used ≤ stb.ticks_used := (hB _ _ _ _ hx).1
        have e2 : stb.ticks_used ≤ st1.ticks_used := (hB _ _ _ _ hk).1
        rcases hIH _ _ _ _ _ hx t2 k with hok1 | ⟨hbnd1, st2, htle1⟩
        · rcases hIH _ _ _ _ _ hk (t2 + (stb.ticks_used - st.ticks_used)) k with
            hok2 | ⟨hbnd2, st2, htle2⟩
          · left
            rw [dispatch_define]
            simp only [bindE_ok hok1]
            have harith : t2 + (stb.ticks_used - st.ticks_used) +
                (st1.ticks_used - stb.ticks_used) = t2 + (st1.ticks_used - st.ticks_used) := by
              omega
            rw [harith] at hok2
            exact hok2
          · right
            refine ⟨by omega, st2, ?_⟩
            rw [dispatch_define]
            simp only [bindE_ok hok1]
            exact htle2
        · right
          refine ⟨by omega, st2, ?_⟩
          rw [dispatch_define]
          exact bindE_err htle1
    · exact absurd (Option.some.inj h) (by simp)
  · -- CALL
    split at h
    · rename_i b c heq
      obtain rfl := into_cell_eq_some.mp heq
      rcases bindE_some_elim h with ⟨e, stE, hx, hpair⟩ | ⟨vb, stb, hx, hk⟩
      · exact absurd hpair (by simp)
      · have e1 : st.ticks_used ≤ stb.ticks_used := (hB _ _ _ _ hx).1
        split at hk
        · exact absurd (Option.some.inj hk) (by simp)
        · rename_i inner haxis
          have e2 : stb.ticks_used ≤ st1.ticks_used := (hB _ _ _ _ hk).1
          rcases hIH _ _ _ _ _ hx t2 k with hok1 | ⟨hbnd1, st2, htle1⟩
          · rcases hIH _ _ _ _ _ hk (t2 + (stb.ticks_used - st.ticks_used)) k with
              hok2 | ⟨hbnd2, st2, htle2⟩
            · left
              rw [dispatch_call]
              simp only [bindE_ok hok1, haxis]
              have harith : t2 + (stb.ticks_used - st.ticks_used) +
                  (st1.ticks_used - stb.ticks_used) = t2 + (st1.ticks_used - st.ticks_used) := by
                omega
              rw [harith] at hok2
              exact hok2
            · right
              refine ⟨by omega, st2, ?_⟩
              rw [dispatch_call]
              simp only [bindE_ok hok1, haxis]
              exact htle2
          · right
            refine ⟨by omega, st2, ?_⟩
            rw [dispatch_call]
            exact bindE_err htle1
    · exact absurd (Option.some.inj h) (by simp)
  · -- HASH
    rcases bindE_some_elim h with ⟨e, stE, hx, hpair⟩ | ⟨vb, stb, hx, hk⟩
    · exact absurd hpair (by simp)
    · have e1 : st.ticks_used ≤ stb.ticks_used := (hB _ _ _ _ hx).1
      split at hk
      · exact absurd (Option.some.inj hk) (by simp)
      · rename_i buffer hser
        obtain ⟨hr, hst⟩ := out_inj hk
        subst hst
        rcases hIH _ _ _ _ _ hx t2 k with hok1 | ⟨hbnd1, st2, htle1⟩
        · left
          rw [dispatch_hash]
          simp only [bindE_ok hok1, hser, hr, Option.some.injEq, Prod.mk.injEq,
            CompState.mk.injEq, true_and, and_true]
          omega
        · right
          refine ⟨?_, st2, ?_⟩
          · show k ≤ t2 + (stb.ticks_used + (20 + buffer.length) - st.ticks_used)
            omega
          · rw [dispatch_hash]
            exact bindE_err htle1
  · -- STORE_BY_HASH
    rcases bindE_some_elim h with ⟨e, stE, hx, hpair⟩ | ⟨vb, stb, hx, hk⟩
    · exact absurd hpair (by simp)
    · have e1 : st.ticks_used ≤ stb.ticks_used := (hB _ _ _ _ hx).1
      split at hk
      · exact absurd (Option.some.inj hk) (by simp)
      · rename_i buffer hser
        obtain ⟨hr, hst⟩ := out_inj hk
        subst hst
        rcases hIH _ _ _ _ _ hx t2 k with hok1 | ⟨hbnd1, st2, htle1⟩
        · left
          rw [dispatch_store]
          simp only [bindE_ok hok1, hser, hr, Option.some.injEq, Prod.mk.injEq,
            CompState.mk.injEq, true_and, and_true]
          omega
        · right
          refine ⟨?_, st2, ?_⟩
          · show k ≤ t2 + (stb.ticks_used + (20 + buffer.length) - st.ticks_used)
            omega
          · rw [dispatch_store]
            exact bindE_err htle1
  · -- RETRIEVE_BY_HASH
    rcases bindE_some_elim h with ⟨e, stE, hx, hpair⟩ | ⟨vb, stb, hx, hk⟩
    · exact absurd hpair (by simp)
    · have e1 : st.ticks_used ≤ stb.ticks_used := (hB _ _ _ _ hx).1
      split at hk
      · rename_i x
        split at hk
        · rename_i xs hload
          split at hk
          · rename_i decoded hdes
            obtain ⟨hr, hst⟩ := out_inj hk
            subst hst
            rcases hIH _ _ _ _ _ hx t2 k with hok1 | ⟨hbnd1, st2, htle1⟩
            · left
              rw [dispatch_retrieve]
              simp only [bindE_ok hok1, hload, hdes]
              rw [hr]
            · right
              exact ⟨hbnd1, st2, by rw [dispatch_retrieve]; exact bindE_err htle1⟩
          · exact absurd (Option.some.inj hk) (by simp)
        · obtain ⟨hr, hst⟩ := out_inj hk
          subst hst
          rcases hIH _ _ _ _ _ hx t2 k with hok1 | ⟨hbnd1, st2, htle1⟩
          · left
            rw [dispatch_retrieve]
            simp only [bindE_ok hok1]
            rename_i hload
            simp only [hload]
            rw [hr]
          · right
            exact ⟨hbnd1, st2, by rw [dispatch_retrieve]; exact bindE_err htle1⟩
      · exact absurd (Option.some.inj hk) (by simp)
  · -- unassigned opcode
    exact absurd (Option.some.inj h) (by simp)

lemma eval_on_transfer : ∀ {fuel : Nat} {st : CompState} {s f r : Noun} {st1 : CompState},
    eval_on fuel st s f = some (.ok r, st1) → ∀ t2 k,
    eval_on fuel ⟨t2, k, st.engine⟩ s f =
        some (.ok r, ⟨t2 + (st1.ticks_used - st.ticks_used), k, st1.engine⟩) ∨
      (k ≤ t2 + (st1.ticks_used - st.ticks_used) ∧
        ∃ st2, eval_on fuel ⟨t2, k, st.engine⟩ s f = some (.error .TickLimitExceeded, st2)) := by
  intro fuel
  induction fuel with
  | zero =>
      intro st s f r st1 h
      exact absurd h (by simp [eval_on])
  | succ fuel ih =>
      intro st s f r st1 h t2 k
      have hIH : ∀ st' s' f' r' st1', eval_on fuel st' s' f' = some (.ok r', st1') → ∀ t2 k,
          eval_on fuel ⟨t2, k, st'.engine⟩ s' f' =
              some (.ok r', ⟨t2 + (st1'.ticks_used - st'.ticks_used), k, st1'.engine⟩) ∨
            (k ≤ t2 + (st1'.ticks_used - st'.ticks_used) ∧
              ∃ st2, eval_on fuel ⟨t2, k, st'.engine⟩ s' f' =
                some (.error .TickLimitExceeded, st2)) :=
        fun st' s' f' r' st1' h' => ih h'
      have hB : ∀ st' s' f' out', eval_on fuel st' s' f' = some out' → basicP st' out' := by
        intro st' s' f' out' h'
        obtain ⟨a, b, c, d⟩ := eval_on_basic h'
        exact ⟨le_of_lt a, b, c, d⟩
      have hts : st.ticks_used < st1.ticks_used := (eval_on_basic h).1
      by_cases hkcap : k ≤ t2 + 1
      · right
        refine ⟨by omega, ⟨t2 + 1, k, st.engine⟩, ?_⟩
        simp only [eval_on]
        rw [if_pos (show k ≤ t2 + 1 from hkcap)]
      · simp only [eval_on] at h
        split at h
        · exact absurd (Option.some.inj h) (by simp)
        · split at h
          · exact absurd (Option.some.inj h) (by simp)
          · rename_i p op arg heq
            split at h
            · -- distribute
              rename_i hcell
              rcases bindE_some_elim h with ⟨e, stE, hx, hpair⟩ | ⟨vb, stb, hx, hk⟩
              · exact absurd hpair (by simp)
              · rcases bindE_some_elim hk with ⟨e, stE, hx2, hpair⟩ | ⟨vc, stc, hx2, hk2⟩
                · exact absurd hpair (by simp)
                · obtain ⟨hr, hst⟩ := out_inj hk2
                  subst hst
                  have e1 : st.ticks_used + 1 ≤ stb.ticks_used := (hB _ _ _ _ hx).1
                  have e2 : stb.ticks_used ≤ stc.ticks_used := (hB _ _ _ _ hx2).1
                  rcases hIH _ _ _ _ _ hx (t2 + 1) k with hok1 | ⟨hbnd1, st2, htle1⟩
                  · have hok1A : eval_on fuel ⟨t2 + 1, k, st.engine⟩ s op =
                        some (.ok vb,
                          ⟨t2 + 1 + (stb.ticks_used - (st.ticks_used + 1)), k, stb.engine⟩) :=
                      hok1
                    rcases hIH _ _ _ _ _ hx2
                        (t2 + 1 + (stb.ticks_used - (st.ticks_used + 1))) k with
                        hok2 | ⟨hbnd2, st2, htle2⟩
                    · left
                      simp only [eval_on]
                      rw [if_neg hkcap]
                      simp only [heq]
                      rw [if_pos hcell]
                      simp only [bindE_ok hok1A]
                      simp only [bindE_ok hok2]
                      rw [hr]
                      simp only [Option.some.injEq, Prod.mk.injEq, CompState.mk.injEq,
                        true_and, and_true]
                      omega
                    · right
                      have hbnd2A : k ≤ t2 + 1 + (stb.ticks_used - (st.ticks_used + 1)) +
                          (stc.ticks_used - stb.ticks_used) := hbnd2
                      refine ⟨?_, st2, ?_⟩
                      · show k ≤ t2 + (stc.ticks_used - st.ticks_used)
                        omega
                      · simp only [eval_on]
                        rw [if_neg hkcap]
                        simp only [heq]
                        rw [if_pos hcell]
                        simp only [bindE_ok hok1A]
                        exact bindE_err htle2
                  · right
                    have hbnd1A : k ≤ t2 + 1 + (stb.ticks_used - (st.ticks_used + 1)) := hbnd1
                    refine ⟨?_, st2, ?_⟩
                    · show k ≤ t2 + (stc.ticks_used - st.ticks_used)
                      omega
                    · simp only [eval_on]
                      rw [if_neg hkcap]
                      simp only [heq]
                      rw [if_pos hcell]
                      exact bindE_err htle1
            · -- opcode dispatch
              rename_i hcell
              split at h
              · exact absurd (Option.some.inj h) (by simp)
              · rename_i opc hu8
                have hdb := dispatch_basic hB h
                have e1 : st.ticks_used + 1 ≤ st1.ticks_used := hdb.1
                have hcell2 : ¬ (op.is_cell = true) := by simp [hcell]
                rcases dispatch_transfer hIH hB h (t2 + 1) k with hok | ⟨hbnd, st2, htle⟩
                · have hokA : dispatch (eval_on fuel) ⟨t2 + 1, k, st.engine⟩ s opc arg =
                      some (.ok r,
                        ⟨t2 + 1 + (st1.ticks_used - (st.ticks_used + 1)), k, st1.engine⟩) := hok
                  left
                  simp only [eval_on]
                  rw [if_neg hkcap]
                  simp only [heq]
                  rw [if_neg hcell2]
                  simp only [hu8]
                  rw [hokA]
                  simp only [Option.some.injEq, Prod.mk.injEq, CompState.mk.injEq,
                    true_and, and_true]
                  omega
                · right
                  have hbndA : k ≤ t2 + 1 + (st1.ticks_used - (st.ticks_used + 1)) := hbnd
                  refine ⟨?_, st2, ?_⟩
                  · show k ≤ t2 + (st1.ticks_used - st.ticks_used)
                    omega
                  · simp only [eval_on]
                    rw [if_neg hkcap]
                    simp only [heq]
                    rw [if_neg hcell2]
                    simp only [hu8]
                    exact htle

/-- Determinism of successful runs with respect to the tick parameters: two
successful evaluations of the same subject and formula from the same engine
agree on the value, the final engine, and the tick spend, whatever their
starting counters, caps and fuel. -/
lemma eval_on_det {fuel1 fuel2 : Nat} {stA stB : CompState} {s f r1 r2 : Noun}
    {stA1 stB1 : CompState}
    (h1 : eval_on fuel1 stA s f = some (.ok r1, stA1))
    (h2 : eval_on fuel2 stB s f = some (.ok r2, stB1))
    (heng : stA.engine = stB.engine) :
    r1 = r2 ∧ stA1.engine = stB1.engine ∧
      stB1.ticks_used - stB.ticks_used = stA1.ticks_used - stA.ticks_used := by
  have h1A := eval_on_mono (le_max_left fuel1 fuel2) h1
  have h2A := eval_on_mono (le_max_right fuel1 fuel2) h2
  rcases eval_on_transfer h1A stB.ticks_used stB.tick_cap with hok | ⟨hbnd, st2, htle⟩
  · rw [heng] at hok
    have hsame := eval_on_agree hok h2A
    have hr : (Except.ok r1 : Except EvalError Noun) = .ok r2 := congrArg Prod.fst hsame
    have hstate : (⟨stB.ticks_used + (stA1.ticks_used - stA.ticks_used), stB.tick_cap,
        stA1.engine⟩ : CompState) = stB1 := congrArg Prod.snd hsame
    have heng2 := congrArg CompState.engine hstate
    have hticks0 := congrArg CompState.ticks_used hstate
    refine ⟨Except.ok.inj hr, heng2, ?_⟩
    have hticks : stB.ticks_used + (stA1.ticks_used - stA.ticks_used) = stB1.ticks_used :=
      hticks0
    have hA : stA.ticks_used < stA1.ticks_used := (eval_on_basic h1).1
    omega
  · rw [heng] at htle
    have := eval_on_agree htle h2A
    exact absurd (congrArg Prod.fst this) (by simp)

/-- A successful inner run normalizes to a successful top-level eval from the
same engine, under the cap one above its tick spend. -/
lemma eval_on_to_eval {fuel : Nat} {st : CompState} {s f r : Noun} {st1 : CompState}
    (h : eval_on fuel st s f = some (.ok r, st1)) :
    eval (.cell s f) st.engine (st1.ticks_used - st.ticks_used + 1) =
      some (.ok r, ⟨st1.ticks_used - st.ticks_used,
        st1.ticks_used - st.ticks_used + 1, st1.engine⟩) := by
  rcases eval_on_transfer h 0 (st1.ticks_used - st.ticks_used + 1) with hok | ⟨hbnd, st2, htle⟩
  · rw [Nat.zero_add] at hok
    show eval_on (st1.ticks_used - st.ticks_used + 1 + 1)
        ⟨0, st1.ticks_used - st.ticks_used + 1, st.engine⟩ s f =
      some (.ok r, ⟨st1.ticks_used - st.ticks_used,
        st1.ticks_used - st.ticks_used + 1, st1.engine⟩)
    have hne : eval_on (st1.ticks_used - st.ticks_used + 1 + 1)
        ⟨0, st1.ticks_used - st.ticks_used + 1, st.engine⟩ s f ≠ none :=
      eval_on_total (by omega)
        (show st1.ticks_used - st.ticks_used + 1 ≤ st1.ticks_used - st.ticks_used + 1 + 1 + 0
          by omega)
    cases ho : eval_on (st1.ticks_used - st.ticks_used + 1 + 1)
        ⟨0, st1.ticks_used - st.ticks_used + 1, st.engine⟩ s f with
    | none => exact absurd ho hne
    | some out =>
        exact congrArg some (eval_on_agree hok ho).symm
  · exact absurd hbnd (by omega)

/-! ## The cost model of the spec, as an instrumented evaluator

Modelled from the spec, section 4.5: every reduction step costs one tick and
HASH and STORE_BY_HASH additionally charge 20 plus the serialized byte
length.  Instead of mutating a tick counter, this evaluator counts reduction
steps and records the serialized length of each surcharge; the tick counter
of the source evaluator should then always equal the starting count plus the
steps plus the sum of the surcharges, which is proved below. -/

/-- Cost accounting state: reduction steps taken, the serialized lengths of
the HASH and STORE_BY_HASH surcharges, and the engine. -/
structure CostState where
  steps : Nat
  lens : List Nat
  engine : Engine
deriving DecidableEq, Repr

/-- The tick counter the cost model predicts from a starting count. -/
def costTicks (t0 : Nat) (cst : CostState) : Nat :=
  t0 + cst.steps + (cst.lens.map (fun l => 20 + l)).sum

lemma costTicks_step {t0 : Nat} {cst : CostState} :
    costTicks t0 { cst with steps := cst.steps + 1 } = costTicks t0 cst + 1 := by
  simp [costTicks]
  omega

lemma costTicks_surcharge {t0 : Nat} {cst : CostState} {L : Nat} {e : Engine} :
    costTicks t0 { steps := cst.steps, lens := cst.lens ++ [L], engine := e } =
      costTicks t0 cst + (20 + L) := by
  simp [costTicks]
  omega

/-- Modelled from the spec: the dispatch table under cost accounting. -/
def dispatchCost (recur : CostState → Noun → Noun → Option (Out CostState))
    (cst : CostState) (subject : Noun) (opcode : Nat) (argument : Noun) :
    Option (Out CostState) :=
  match opcode with
  | 0 => some (subject.axis argument, cst)
  | 1 => some (.ok argument, cst)
  | 2 =>
      match argument.into_cell with
      | some (b, c) =>
          bindE (recur cst subject b) (fun b_result c1 =>
            bindE (recur c1 subject c) (fun c_result c2 =>
              recur c2 b_result c_result))
      | none => some (.error .BadRecurseArgument, cst)
  | 3 =>
      bindE (recur cst subject argument) (fun r c1 =>
        some (.ok (Noun.from_bool r.is_cell), c1))
  | 4 =>
      bindE (recur cst subject argument) (fun r c1 =>
        some (natural_add r (Noun.from_u8 1), c1))
  | 5 =>
      bindE (recur cst subject argument) (fun r c1 =>
        match r with
        | .cell lhs rhs => some (.ok (Noun.equal lhs rhs), c1)
        | _ => some (.error .BadEqualsArgument, c1))
  | 6 =>
      match into_triple argument with
      | some (b, c, d) =>
          bindE (recur cst subject b) (fun condition c1 =>
            match condition.as_u8 with
            | some 0 => recur c1 subject c
            | some 1 => recur c1 subject d
            | _ => some (.error .BadIfCondition, c1))
      | none => some (.error .BadArgument, cst)
  | 7 =>
      match argument.into_cell with
      | some (b, c) =>
          bindE (recur cst subject b) (fun b_of_x c1 => recur c1 b_of_x c)
      | none => some (.error .BadArgument, cst)
  | 8 =>
      match argument.into_cell with
      | some (b, c) =>
          bindE (recur cst subject b) (fun subject_prime c1 =>
            recur c1 (Noun.cell subject_prime subject) c)
      | none => some (.error .BadArgument, cst)
  | 9 =>
      match argument.into_cell with
      | some (b, c) =>
          bindE (recur cst subject c) (fun core c1 =>
            match core.axis b with
            | .error e => some (.error e, c1)
            | .ok inner_formula => recur c1 core inner_formula)
      | none => some (.error .BadArgument, cst)
  | 10 =>
      bindE (recur cst subject argument) (fun hash_target c1 =>
        match serializeE hash_target with
        | .error e => some (.error e, c1)
        | .ok buffer =>
            some (.ok (Noun.from_slice (blake2b512 buffer)),
              { steps := c1.steps, lens := c1.lens ++ [buffer.length],
                engine := c1.engine }))
  | 11 =>
      bindE (recur cst subject argument) (fun hash_target c1 =>
        match serializeE hash_target with
        | .error e => some (.error e, c1)
        | .ok buffer =>
            some (.ok (Noun.from_bool true),
              { steps := c1.steps, lens := c1.lens ++ [buffer.length],
                engine := c1.engine.store (1 :: blake2b512 buffer) buffer }))
  | 12 =>
      bindE (recur cst subject argument) (fun hash c1 =>
        match hash with
        | .atom x =>
            (match c1.engine.load (1 :: x) with
             | some xs =>
                 (match deserialize xs with
                  | .ok decoded => some (.ok (Noun.cell (Noun.from_bool true) decoded), c1)
                  | .error _ => some (.error .StorageCorrupt, c1))
             | none => some (.ok (Noun.from_bool false), c1))
        | _ => some (.error .BadArgument, c1))
  | n => some (.error (.BadOpcode n), cst)

/-- Modelled from the spec: the reduction loop under cost accounting.  The
cap check compares the cap against the predicted counter t0 + steps +
surcharges. -/
def eval_on_cost : Nat → Nat → Nat → CostState → Noun → Noun → Option (Out CostState)
  | 0, _, _, _, _, _ => none
  | fuel + 1, t0, cap, cst0, subject, formula =>
    let cst : CostState := { cst0 with steps := cst0.steps + 1 }
    if cap ≤ costTicks t0 cst then some (.error .TickLimitExceeded, cst)
    else
      match formula.into_cell with
      | none => some (.error .AtomicFormula, cst)
      | some (opcode_noun, argument) =>
          if opcode_noun.is_cell then
            bindE (eval_on_cost fuel t0 cap cst subject opcode_noun) (fun lhs c1 =>
              bindE (eval_on_cost fuel t0 cap c1 subject argument) (fun rhs c2 =>
                some (.ok (Noun.cell lhs rhs), c2)))
          else
            match opcode_noun.as_u8 with
            | none => some (.error .NotAnOpcode, cst)
            | some opcode => dispatchCost (eval_on_cost fuel t0 cap) cst subject opcode argument

section DispatchCostSteps

variable {recur : CostState → Noun → Noun → Option (Out CostState)}
variable {cst : CostState} {s b c d argument : Noun}

lemma dispatchCost_axis : dispatchCost recur cst s 0 argument = some (s.axis argument, cst) := rfl

lemma dispatchCost_literal : dispatchCost recur cst s 1 argument = some (.ok argument, cst) := rfl

lemma dispatchCost_recurse :
    dispatchCost recur cst s 2 (.cell b c) =
      bindE (recur cst s b) (fun b_result c1 =>
        bindE (recur c1 s c) (fun c_result c2 => recur c2 b_result c_result)) := rfl

lemma dispatchCost_recurse_bad (h : argument.into_cell = none) :
    dispatchCost recur cst s 2 argument = some (.error .BadRecurseArgument, cst) := by
  cases argument with
  | byteAtom x => rfl
  | atom xs => rfl
  | cell l r => exact absurd h (by simp [Noun.into_cell])

lemma dispatchCost_is_cell :
    dispatchCost recur cst s 3 argument =
      bindE (recur cst s argument) (fun r c1 =>
        some (.ok (Noun.from_bool r.is_cell), c1)) := rfl

lemma dispatchCost_increment :
    dispatchCost recur cst s 4 argument =
      bindE (recur cst s argument) (fun r c1 =>
        some (natural_add r (Noun.from_u8 1), c1)) := rfl

lemma dispatchCost_is_equal :
    dispatchCost recur cst s 5 argument =
      bindE (recur cst s argument) (fun r c1 =>
        match r with
        | .cell lhs rhs => some (.ok (Noun.equal lhs rhs), c1)
        | _ => some (.error .BadEqualsArgument, c1)) := rfl

lemma dispatchCost_if :
    dispatchCost recur cst s 6 (.cell b (.cell c d)) =
      bindE (recur cst s b) (fun condition c1 =>
        match condition.as_u8 with
        | some 0 => recur c1 s c
        | some 1 => recur c1 s d
        | _ => some (.error .BadIfCondition, c1)) := rfl

lemma dispatchCost_if_bad (h : into_triple argument = none) :
    dispatchCost recur cst s 6 argument = some (.error .BadArgument, cst) := by
  show (match into_triple argument with
    | some (b, c, d) =>
        bindE (recur cst s b) (fun condition c1 =>
          match condition.as_u8 with
          | some 0 => recur c1 s c
          | some 1 => recur c1 s d
          | _ => some (.error .BadIfCondition, c1))
    | none => some (.error .BadArgument, cst)) = some (.error .BadArgument, cst)
  rw [h]

lemma dispatchCost_compose :
    dispatchCost recur cst s 7 (.cell b c) =
      bindE (recur cst s b) (fun b_of_x c1 => recur c1 b_of_x c) := rfl

lemma dispatchCost_compose_bad (h : argument.into_cell = none) :
    dispatchCost recur cst s 7 argument = some (.error .BadArgument, cst) := by
  cases argument with
  | byteAtom x => rfl
  | atom xs => rfl
  | cell l r => exact absurd h (by simp [Noun.into_cell])

lemma dispatchCost_define :
    dispatchCost recur cst s 8 (.cell b c) =
      bindE (recur cst s b) (fun subject_prime c1 =>
        recur c1 (Noun.cell subject_prime s) c) := rfl

lemma dispatchCost_define_bad (h : argument.into_cell = none) :
    dispatchCost recur cst s 8 argument = some (.error .BadArgument, cst) := by
  cases argument with
  | byteAtom x => rfl
  | atom xs => rfl
  | cell l r => exact absurd h (by simp [Noun.into_cell])

lemma dispatchCost_call :
    dispatchCost recur cst s 9 (.cell b c) =
      bindE (recur cst s c) (fun core c1 =>
        match core.axis b with
        | .error e => some (.error e, c1)
        | .ok inner_formula => recur c1 core inner_formula) := rfl

lemma dispatchCost_call_bad (h : argument.into_cell = none) :
    dispatchCost recur cst s 9 argument = some (.error .BadArgument, cst) := by
  cases argument with
  | byteAtom x => rfl
  | atom xs => rfl
  | cell l r => exact absurd h (by simp [Noun.into_cell])

lemma dispatchCost_hash :
    dispatchCost recur cst s 10 argument =
      bindE (recur cst s argument) (fun hash_target c1 =>
        match serializeE hash_target with
        | .error e => some (.error e, c1)
        | .ok buffer =>
            some (.ok (Noun.from_slice (blake2b512 buffer)),
              { steps := c1.steps, lens := c1.lens ++ [buffer.length],
                engine := c1.engine })) := rfl

lemma dispatchCost_store :
    dispatchCost recur cst s 11 argument =
      bindE (recur cst s argument) (fun hash_target c1 =>
        match serializeE hash_target with
        | .error e => some (.error e, c1)
        | .ok buffer =>
            some (.ok (Noun.from_bool true),
              { steps := c1.steps, lens := c1.lens ++ [buffer.length],
                engine := c1.engine.store (1 :: blake2b512 buffer) buffer })) := rfl

lemma dispatchCost_retrieve :
    dispatchCost recur cst s 12 argument =
      bindE (recur cst s argument) (fun hash c1 =>
        match hash with
        | .atom x =>
            (match c1.engine.load (1 :: x) with
             | some xs =>
                 (match deserialize xs with
                  | .ok decoded => some (.ok (Noun.cell (Noun.from_bool true) decoded), c1)
                  | .error _ => some (.error .StorageCorrupt, c1))
             | none => some (.ok (Noun.from_bool false), c1))
        | _ => some (.error .BadArgument, c1)) := rfl

end DispatchCostSteps

lemma dispatchCost_sim {recur : CompState → Noun → Noun → Option (Out CompState)}
    {recurC : CostState → Noun → Noun → Option (Out CostState)} {t0 cap : Nat}
    (hrec : ∀ st' s' f' r' st1' cst', recur st' s' f' = some (r', st1') →
        st'.tick_cap = cap → st'.ticks_used = costTicks t0 cst' → st'.engine = cst'.engine →
        ∃ cst1, recurC cst' s' f' = some (r', cst1) ∧ st1'.tick_cap = cap ∧
          st1'.ticks_used = costTicks t0 cst1 ∧ st1'.engine = cst1.engine)
    {st s opc arg r st1 cst}
    (h : dispatch recur st s opc arg = some (r, st1))
    (hcap : st.tick_cap = cap) (ht : st.ticks_used = costTicks t0 cst)
    (he : st.engine = cst.engine) :
    ∃ cst1, dispatchCost recurC cst s opc arg = some (r, cst1) ∧ st1.tick_cap = cap ∧
      st1.ticks_used = costTicks t0 cst1 ∧ st1.engine = cst1.engine := by
  unfold dispatch at h
  split at h
  · -- AXIS
    obtain ⟨hr, hst⟩ := out_inj h
    subst hst
    exact ⟨cst, by rw [dispatchCost_axis, hr], hcap, ht, he⟩
  · -- LITERAL
    obtain ⟨hr, hst⟩ := out_inj h
    subst hst
    exact ⟨cst, by rw [dispatchCost_literal, hr], hcap, ht, he⟩
  · -- RECURSE
    split at h
    · rename_i b c heq
      obtain rfl := into_cell_eq_some.mp heq
      rcases bindE_some_elim h with ⟨e, stE, hx, hpair⟩ | ⟨vb, stb, hx, hk⟩
      · have hre : r = .error e := congrArg Prod.fst hpair
        have hstE : st1 = stE := congrArg Prod.snd hpair
        subst hre; subst hstE
        obtain ⟨cst1, hcx, hc1, ht1, he1⟩ := hrec _ _ _ _ _ _ hx hcap ht he
        exact ⟨cst1, by rw [dispatchCost_recurse]; exact bindE_err hcx, hc1, ht1, he1⟩
      · obtain ⟨cstb, hcx, hc1, ht1, he1⟩ := hrec _ _ _ _ _ _ hx hcap ht he
        rcases bindE_some_elim hk with ⟨e, stE, hx2, hpair⟩ | ⟨vc, stc, hx2, hk2⟩
        · have hre : r = .error e := congrArg Prod.fst hpair
          have hstE : st1 = stE := congrArg Prod.snd hpair
          subst hre; subst hstE
          obtain ⟨cstc, hcx2, hc2, ht2, he2⟩ := hrec _ _ _ _ _ _ hx2 hc1 ht1 he1
          exact ⟨cstc,
            by rw [dispatchCost_recurse]; simp only [bindE_ok hcx]; exact bindE_err hcx2,
            hc2, ht2, he2⟩
        · obtain ⟨cstc, hcx2, hc2, ht2, he2⟩ := hrec _ _ _ _ _ _ hx2 hc1 ht1 he1
          obtain ⟨cstf, hcx3, hc3, ht3, he3⟩ := hrec _ _ _ _ _ _ hk2 hc2 ht2 he2
          exact ⟨cstf,
            by rw [dispatchCost_recurse]; simp only [bindE_ok hcx, bindE_ok hcx2]; exact hcx3,
            hc3, ht3, he3⟩
    · rename_i heq
      obtain ⟨hr, hst⟩ := out_inj h
      subst hst
      exact ⟨cst, by rw [dispatchCost_recurse_bad heq, hr], hcap, ht, he⟩
  · -- IS_CELL
    rcases bindE_some_elim h with ⟨e, stE, hx, hpair⟩ | ⟨vb, stb, hx, hk⟩
    · have hre : r = .error e := congrArg Prod.fst hpair
      have hstE : st1 = stE := congrArg Prod.snd hpair
      subst hre; subst hstE
      obtain ⟨cst1, hcx, hc1, ht1, he1⟩ := hrec _ _ _ _ _ _ hx hcap ht he
      exact ⟨cst1, by rw [dispatchCost_is_cell]; exact bindE_err hcx, hc1, ht1, he1⟩
    · obtain ⟨hr, hst⟩ := out_inj hk
      subst hst
      obtain ⟨cstb, hcx, hc1, ht1, he1⟩ := hrec _ _ _ _ _ _ hx hcap ht he
      exact ⟨cstb, by rw [dispatchCost_is_cell]; simp only [bindE_ok hcx]; rw [hr],
        hc1, ht1, he1⟩
  · -- INCREMENT
    rcases bindE_some_elim h with ⟨e, stE, hx, hpair⟩ | ⟨vb, stb, hx, hk⟩
    · have hre : r = .error e := congrArg Prod.fst hpair
      have hstE : st1 = stE := congrArg Prod.snd hpair
      subst hre; subst hstE
      obtain ⟨cst1, hcx, hc1, ht1, he1⟩ := hrec _ _ _ _ _ _ hx hcap ht he
      exact ⟨cst1, by rw [dispatchCost_increment]; exact bindE_err hcx, hc1, ht1, he1⟩
    · obtain ⟨hr, hst⟩ := out_inj hk
      subst hst
      obtain ⟨cstb, hcx, hc1, ht1, he1⟩ := hrec _ _ _ _ _ _ hx hcap ht he
      exact ⟨cstb, by rw [dispatchCost_increment]; simp only [bindE_ok hcx]; rw [hr],
        hc1, ht1, he1⟩
  · -- IS_EQUAL
    rcases bindE_some_elim h with ⟨e, stE, hx, hpair⟩ | ⟨vb, stb, hx, hk⟩
    · have hre : r = .error e := congrArg Prod.fst hpair
      have hstE : st1 = stE := congrArg Prod.snd hpair
      subst hre; subst hstE
      obtain ⟨cst1, hcx, hc1, ht1, he1⟩ := hrec _ _ _ _ _ _ hx hcap ht he
      exact ⟨cst1, by rw [dispatchCost_is_equal]; exact bindE_err hcx, hc1, ht1, he1⟩
    · obtain ⟨cstb, hcx, hc1, ht1, he1⟩ := hrec _ _ _ _ _ _ hx hcap ht he
      cases vb with
      | cell lhs rhs =>
          obtain ⟨hr, hst⟩ := out_inj hk
          subst hst
          exact ⟨cstb, by rw [dispatchCost_is_equal]; simp only [bindE_ok hcx]; rw [hr],
            hc1, ht1, he1⟩
      | byteAtom x =>
          obtain ⟨hr, hst⟩ := out_inj hk
          subst hst
          exact ⟨cstb, by rw [dispatchCost_is_equal]; simp only [bindE_ok hcx]; rw [hr],
            hc1, ht1, he1⟩
      | atom xs =>
          obtain ⟨hr, hst⟩ := out_inj hk
          subst hst
          exact ⟨cstb, by rw [dispatchCost_is_equal]; simp only [bindE_ok hcx]; rw [hr],
            hc1, ht1, he1⟩
  · -- IF
    split at h
    · rename_i b c d heq
      obtain rfl := into_triple_eq_some.mp heq
      rcases bindE_some_elim h with ⟨e, stE, hx, hpair⟩ | ⟨vb, stb, hx, hk⟩
      · have hre : r = .error e := congrArg Prod.fst hpair
        have hstE : st1 = stE := congrArg Prod.snd hpair
        subst hre; subst hstE
        obtain ⟨cst1, hcx, hc1, ht1, he1⟩ := hrec _ _ _ _ _ _ hx hcap ht he
        exact ⟨cst1, by rw [dispatchCost_if]; exact bindE_err hcx, hc1, ht1, he1⟩
      · obtain ⟨cstb, hcx, hc1, ht1, he1⟩ := hrec _ _ _ _ _ _ hx hcap ht he
        split at hk
        · rename_i hcond
          obtain ⟨cstc, hcx2, hc2, ht2, he2⟩ := hrec _ _ _ _ _ _ hk hc1 ht1 he1
          exact ⟨cstc,
            by rw [dispatchCost_if]; simp only [bindE_ok hcx, hcond]; exact hcx2,
            hc2, ht2, he2⟩
        · rename_i hcond
          obtain ⟨cstc, hcx2, hc2, ht2, he2⟩ := hrec _ _ _ _ _ _ hk hc1 ht1 he1
          exact ⟨cstc,
            by rw [dispatchCost_if]; simp only [bindE_ok hcx, hcond]; exact hcx2,
            hc2, ht2, he2⟩
        · rename_i hcond1 hcond2
          obtain ⟨hr, hst⟩ := out_inj hk
          subst hst
          refine ⟨cstb, ?_, hc1, ht1, he1⟩
          rw [dispatchCost_if]
          simp only [bindE_ok hcx]
          rcases hcu : vb.as_u8 with _ | n
          · show some ((.error .BadIfCondition : Except EvalError Noun), cstb) = some (r, cstb)
            rw [hr]
          · rcases n with _ | _ | n
            · exact absurd hcu hcond1
            · exact absurd hcu hcond2
            · show some ((.error .BadIfCondition : Except EvalError Noun), cstb) = some (r, cstb)
              rw [hr]
    · rename_i heq
      obtain ⟨hr, hst⟩ := out_inj h
      subst hst
      exact ⟨cst, by rw [dispatchCost_if_bad heq, hr], hcap, ht, he⟩
  · -- COMPOSE
    split at h
    · rename_i b c heq
      obtain rfl := into_cell_eq_some.mp heq
      rcases bindE_some_elim h with ⟨e, stE, hx, hpair⟩ | ⟨vb, stb, hx, hk⟩
      · have hre : r = .error e := congrArg Prod.fst hpair
        have hstE : st1 = stE := congrArg Prod.snd hpair
        subst hre; subst hstE
        obtain ⟨cst1, hcx, hc1, ht1, he1⟩ := hrec _ _ _ _ _ _ hx hcap ht he
        exact ⟨cst1, by rw [dispatchCost_compose]; exact bindE_err hcx, hc1, ht1, he1⟩
      · obtain ⟨cstb, hcx, hc1, ht1, he1⟩ := hrec _ _ _ _ _ _ hx hcap ht he
        obtain ⟨cstc, hcx2, hc2, ht2, he2⟩ := hrec _ _ _ _ _ _ hk hc1 ht1 he1
        exact ⟨cstc, by rw [dispatchCost_compose]; simp only [bindE_ok hcx]; exact hcx2,
          hc2, ht2, he2⟩
    · rename_i heq
      obtain ⟨hr, hst⟩ := out_inj h
      subst hst
      exact ⟨cst, by rw [dispatchCost_compose_bad heq, hr], hcap, ht, he⟩
  · -- DEFINE
    split at h
    · rename_i b c heq
      obtain rfl := into_cell_eq_some.mp heq
      rcases bindE_some_elim h with ⟨e, stE, hx, hpair⟩ | ⟨vb, stb, hx, hk⟩
      · have hre : r = .error e := congrArg Prod.fst hpair
        have hstE : st1 = stE := congrArg Prod.snd hpair
        subst hre; subst hstE
        obtain ⟨cst1, hcx, hc1, ht1, he1⟩ := hrec _ _ _ _ _ _ hx hcap ht he
        exact ⟨cst1, by rw [dispatchCost_define]; exact bindE_err hcx, hc1, ht1, he1⟩
      · obtain ⟨cstb, hcx, hc1, ht1, he1⟩ := hrec _ _ _ _ _ _ hx hcap ht he
        obtain ⟨cstc, hcx2, hc2, ht2, he2⟩ := hrec _ _ _ _ _ _ hk hc1 ht1 he1
        exact ⟨cstc, by rw [dispatchCost_define]; simp only [bindE_ok hcx]; exact hcx2,
          hc2, ht2, he2⟩
    · rename_i heq
      obtain ⟨hr, hst⟩ := out_inj h
      subst hst
      exact ⟨cst, by rw [dispatchCost_define_bad heq, hr], hcap, ht, he⟩
  · -- CALL
    split at h
    · rename_i b c heq
      obtain rfl := into_cell_eq_some.mp heq
      rcases bindE_some_elim h with ⟨e, stE, hx, hpair⟩ | ⟨vb, stb, hx, hk⟩
      · have hre : r = .error e := congrArg Prod.fst hpair
        have hstE : st1 = stE := congrArg Prod.snd hpair
        subst hre; subst hstE
        obtain ⟨cst1, hcx, hc1, ht1, he1⟩ := hrec _ _ _ _ _ _ hx hcap ht he
        exact ⟨cst1, by rw [dispatchCost_call]; exact bindE_err hcx, hc1, ht1, he1⟩
      · obtain ⟨cstb, hcx, hc1, ht1, he1⟩ := hrec _ _ _ _ _ _ hx hcap ht he
        split at hk
        · rename_i e haxis
          obtain ⟨hr, hst⟩ := out_inj hk
          subst hst
          exact ⟨cstb,
            by rw [dispatchCost_call]; simp only [bindE_ok hcx, haxis]; rw [hr],
            hc1, ht1, he1⟩
        · rename_i inner haxis
          obtain ⟨cstc, hcx2, hc2, ht2, he2⟩ := hrec _ _ _ _ _ _ hk hc1 ht1 he1
          exact ⟨cstc,
            by rw [dispatchCost_call]; simp only [bindE_ok hcx, haxis]; exact hcx2,
            hc2, ht2, he2⟩
    · rename_i heq
      obtain ⟨hr, hst⟩ := out_inj h
      subst hst
      exact ⟨cst, by rw [dispatchCost_call_bad heq, hr], hcap, ht, he⟩
  · -- HASH
    rcases bindE_some_elim h with ⟨e, stE, hx, hpair⟩ | ⟨vb, stb, hx, hk⟩
    · have hre : r = .error e := congrArg Prod.fst hpair
      have hstE : st1 = stE := congrArg Prod.snd hpair
      subst hre; subst hstE
      obtain ⟨cst1, hcx, hc1, ht1, he1⟩ := hrec _ _ _ _ _ _ hx hcap ht he
      exact ⟨cst1, by rw [dispatchCost_hash]; exact bindE_err hcx, hc1, ht1, he1⟩
    · obtain ⟨cstb, hcx, hc1, ht1, he1⟩ := hrec _ _ _ _ _ _ hx hcap ht he
      split at hk
      · rename_i e hser
        obtain ⟨hr, hst⟩ := out_inj hk
        subst hst
        exact ⟨cstb, by rw [dispatchCost_hash]; simp only [bindE_ok hcx, hser]; rw [hr],
          hc1, ht1, he1⟩
      · rename_i buffer hser
        obtain ⟨hr, hst⟩ := out_inj hk
        subst hst
        refine ⟨⟨cstb.steps, cstb.lens ++ [buffer.length], cstb.engine⟩, ?_, hc1, ?_, he1⟩
        · rw [dispatchCost_hash]
          simp only [bindE_ok hcx, hser]
          rw [hr]
        · show stb.ticks_used + (20 + buffer.length) =
            costTicks t0 ⟨cstb.steps, cstb.lens ++ [buffer.length], cstb.engine⟩
          rw [costTicks_surcharge, ht1]
  · -- STORE_BY_HASH
    rcases bindE_some_elim h with ⟨e, stE, hx, hpair⟩ | ⟨vb, stb, hx, hk⟩
    · have hre : r = .error e := congrArg Prod.fst hpair
      have hstE : st1 = stE := congrArg Prod.snd hpair
      subst hre; subst hstE
      obtain ⟨cst1, hcx, hc1, ht1, he1⟩ := hrec _ _ _ _ _ _ hx hcap ht he
      exact ⟨cst1, by rw [dispatchCost_store]; exact bindE_err hcx, hc1, ht1, he1⟩
    · obtain ⟨cstb, hcx, hc1, ht1, he1⟩ := hrec _ _ _ _ _ _ hx hcap ht he
      split at hk
      · rename_i e hser
        obtain ⟨hr, hst⟩ := out_inj hk
        subst hst
        exact ⟨cstb, by rw [dispatchCost_store]; simp only [bindE_ok hcx, hser]; rw [hr],
          hc1, ht1, he1⟩
      · rename_i buffer hser
        obtain ⟨hr, hst⟩ := out_inj hk
        subst hst
        refine ⟨⟨cstb.steps, cstb.lens ++ [buffer.length],
          cstb.engine.store (1 :: blake2b512 buffer) buffer⟩, ?_, hc1, ?_, ?_⟩
        · rw [dispatchCost_store]
          simp only [bindE_ok hcx, hser]
          rw [hr]
        · show stb.ticks_used + (20 + buffer.length) =
            costTicks t0 ⟨cstb.steps, cstb.lens ++ [buffer.length],
              cstb.engine.store (1 :: blake2b512 buffer) buffer⟩
          rw [costTicks_surcharge, ht1]
        · show stb.engine.store (1 :: blake2b512 buffer) buffer =
            cstb.engine.store (1 :: blake2b512 buffer) buffer
          rw [he1]
  · -- RETRIEVE_BY_HASH
    rcases bindE_some_elim h with ⟨e, stE, hx, hpair⟩ | ⟨vb, stb, hx, hk⟩
    · have hre : r = .error e := congrArg Prod.fst hpair
      have hstE : st1 = stE := congrArg Prod.snd hpair
      subst hre; subst hstE
      obtain ⟨cst1, hcx, hc1, ht1, he1⟩ := hrec _ _ _ _ _ _ hx hcap ht he
      exact ⟨cst1, by rw [dispatchCost_retrieve]; exact bindE_err hcx, hc1, ht1, he1⟩
    · obtain ⟨cstb, hcx, hc1, ht1, he1⟩ := hrec _ _ _ _ _ _ hx hcap ht he
      split at hk
      · rename_i x
        have hloadC : ∀ xs, stb.engine.load (1 :: x) = xs →
            cstb.engine.load (1 :: x) = xs := by
          intro xs hxs
          rw [← he1]
          exact hxs
        split at hk
        · rename_i xs hload
          split at hk
          · rename_i decoded hdes
            obtain ⟨hr, hst⟩ := out_inj hk
            subst hst
            exact ⟨cstb,
              by rw [dispatchCost_retrieve];
                 simp only [bindE_ok hcx, hloadC _ hload, hdes]; rw [hr],
              hc1, ht1, he1⟩
          · rename_i hdes
            obtain ⟨hr, hst⟩ := out_inj hk
            subst hst
            exact ⟨cstb,
              by rw [dispatchCost_retrieve];
                 simp only [bindE_ok hcx, hloadC _ hload, hdes]; rw [hr],
              hc1, ht1, he1⟩
        · rename_i hload
          obtain ⟨hr, hst⟩ := out_inj hk
          subst hst
          exact ⟨cstb,
            by rw [dispatchCost_retrieve]; simp only [bindE_ok hcx, hloadC _ hload]; rw [hr],
            hc1, ht1, he1⟩
      · obtain ⟨hr, hst⟩ := out_inj hk
        subst hst
        refine ⟨cstb, ?_, hc1, ht1, he1⟩
        rw [dispatchCost_retrieve]
        simp only [bindE_ok hcx]
        rename_i hne
        cases vb with
        | byteAtom xv => rw [hr]
        | atom xs => exact absurd rfl (hne xs)
        | cell l rr => rw [hr]
  · -- unassigned opcode
    obtain ⟨hr, hst⟩ := out_inj h
    subst hst
    refine ⟨cst, ?_, hcap, ht, he⟩
    rename_i n hn0 hn1 hn2 hn3 hn4 hn5 hn6 hn7 hn8 hn9 hn10 hn11 hn12
    unfold dispatchCost
    split
    all_goals first
      | exact absurd rfl hn0
      | exact absurd rfl hn1
      | exact absurd rfl hn2
      | exact absurd rfl hn3
      | exact absurd rfl hn4
      | exact absurd rfl hn5
      | exact absurd rfl hn6
      | exact absurd rfl hn7
      | exact absurd rfl hn8
      | exact absurd rfl hn9
      | exact absurd rfl hn10
      | exact absurd rfl hn11
      | exact absurd rfl hn12
      | rw [hr]

lemma eval_on_cost_sim : ∀ {fuel t0 cap : Nat} {st : CompState} {s f : Noun}
    {r : Except EvalError Noun} {st1 : CompState} {cst : CostState},
    eval_on fuel st s f = some (r, st1) → st.tick_cap = cap →
    st.ticks_used = costTicks t0 cst → st.engine = cst.engine →
    ∃ cst1, eval_on_cost fuel t0 cap cst s f = some (r, cst1) ∧
      st1.tick_cap = cap ∧ st1.ticks_used = costTicks t0 cst1 ∧ st1.engine = cst1.engine := by
  intro fuel
  induction fuel with
  | zero =>
      intro t0 cap st s f r st1 cst h hcap ht he
      exact absurd h (by simp [eval_on])
  | succ fuel ih =>
      intro t0 cap st s f r st1 cst h hcap ht he
      have hrec : ∀ st' s' f' r' st1' cst', eval_on fuel st' s' f' = some (r', st1') →
          st'.tick_cap = cap → st'.ticks_used = costTicks t0 cst' → st'.engine = cst'.engine →
          ∃ cst1, eval_on_cost fuel t0 cap cst' s' f' = some (r', cst1) ∧
            st1'.tick_cap = cap ∧ st1'.ticks_used = costTicks t0 cst1 ∧
            st1'.engine = cst1.engine :=
        fun st' s' f' r' st1' cst' h' => ih h'
      have hstep2 : st.ticks_used + 1 = costTicks t0 { cst with steps := cst.steps + 1 } := by
        rw [costTicks_step, ht]
      simp only [eval_on] at h
      split at h
      · rename_i hc
        obtain ⟨hr, hst⟩ := out_inj h
        subst hst
        have hccP : cap ≤ costTicks t0 { cst with steps := cst.steps + 1 } := by
          rw [← hstep2, ← hcap]
          exact hc
        refine ⟨{ cst with steps := cst.steps + 1 }, ?_, hcap, hstep2, he⟩
        simp only [eval_on_cost]
        rw [if_pos hccP, hr]
      · rename_i hc
        have hcc : ¬ (cap ≤ costTicks t0 { cst with steps := cst.steps + 1 }) := by
          rw [← hstep2, ← hcap]
          exact hc
        split at h
        · rename_i heqf
          obtain ⟨hr, hst⟩ := out_inj h
          subst hst
          refine ⟨{ cst with steps := cst.steps + 1 }, ?_, hcap, hstep2, he⟩
          simp only [eval_on_cost]
          rw [if_neg hcc]
          simp only [heqf]
          rw [hr]
        · rename_i p op arg heqf
          split at h
          · rename_i hcell
            rcases bindE_some_elim h with ⟨e, stE, hx, hpair⟩ | ⟨vb, stb, hx, hk⟩
            · have hre : r = .error e := congrArg Prod.fst hpair
              have hstE : st1 = stE := congrArg Prod.snd hpair
              subst hre; subst hstE
              obtain ⟨cstb, hcx, hc1, ht1, he1⟩ := hrec _ _ _ _ _ _ hx hcap hstep2 he
              refine ⟨cstb, ?_, hc1, ht1, he1⟩
              simp only [eval_on_cost]
              rw [if_neg hcc]
              simp only [heqf]
              rw [if_pos hcell]
              exact bindE_err hcx
            · obtain ⟨cstb, hcx, hc1, ht1, he1⟩ := hrec _ _ _ _ _ _ hx hcap hstep2 he
              rcases bindE_some_elim hk with ⟨e, stE, hx2, hpair⟩ | ⟨vc, stc, hx2, hk2⟩
              · have hre : r = .error e := congrArg Prod.fst hpair
                have hstE : st1 = stE := congrArg Prod.snd hpair
                subst hre; subst hstE
                obtain ⟨cstc, hcx2, hc2, ht2, he2⟩ := hrec _ _ _ _ _ _ hx2 hc1 ht1 he1
                refine ⟨cstc, ?_, hc2, ht2, he2⟩
                simp only [eval_on_cost]
                rw [if_neg hcc]
                simp only [heqf]
                rw [if_pos hcell]
                simp only [bindE_ok hcx]
                exact bindE_err hcx2
              · obtain ⟨cstc, hcx2, hc2, ht2, he2⟩ := hrec _ _ _ _ _ _ hx2 hc1 ht1 he1
                obtain ⟨hr, hst⟩ := out_inj hk2
                subst hst
                refine ⟨cstc, ?_, hc2, ht2, he2⟩
                simp only [eval_on_cost]
                rw [if_neg hcc]
                simp only [heqf]
                rw [if_pos hcell]
                simp only [bindE_ok hcx, bindE_ok hcx2]
                rw [hr]
          · rename_i hcell
            have hcell2 : ¬ (op.is_cell = true) := by simp [hcell]
            split at h
            · rename_i hu8
              obtain ⟨hr, hst⟩ := out_inj h
              subst hst
              refine ⟨{ cst with steps := cst.steps + 1 }, ?_, hcap, hstep2, he⟩
              simp only [eval_on_cost]
              rw [if_neg hcc]
              simp only [heqf]
              rw [if_neg hcell2]
              simp only [hu8]
              rw [hr]
            · rename_i opc hu8
              obtain ⟨cst1, hcx, hc1, ht1, he1⟩ := dispatchCost_sim hrec h hcap hstep2 he
              refine ⟨cst1, ?_, hc1, ht1, he1⟩
              simp only [eval_on_cost]
              rw [if_neg hcc]
              simp only [heqf]
              rw [if_neg hcell2]
              simp only [hu8]
              exact hcx

/-! ## Step equations for the reduction loop -/

lemma eval_on_step_tle {fuel : Nat} {st : CompState} {s f : Noun}
    (hc : st.tick_cap ≤ st.ticks_used + 1) :
    eval_on (fuel + 1) st s f =
      some (.error .TickLimitExceeded, { st with ticks_used := st.ticks_used + 1 }) := by
  simp only [eval_on]
  rw [if_pos hc]

lemma eval_on_step_atomic {fuel : Nat} {st : CompState} {s f : Noun}
    (hc : ¬ (st.tick_cap ≤ st.ticks_used + 1)) (hf : f.into_cell = none) :
    eval_on (fuel + 1) st s f =
      some (.error .AtomicFormula, { st with ticks_used := st.ticks_used + 1 }) := by
  simp only [eval_on]
  rw [if_neg hc]
  simp only [hf]

lemma eval_on_step_distribute {fuel : Nat} {st : CompState} {s op arg : Noun}
    (hc : ¬ (st.tick_cap ≤ st.ticks_used + 1)) (hcell : op.is_cell = true) :
    eval_on (fuel + 1) st s (.cell op arg) =
      bindE (eval_on fuel { st with ticks_used := st.ticks_used + 1 } s op) (fun lhs st1 =>
        bindE (eval_on fuel st1 s arg) (fun rhs st2 =>
          some (.ok (Noun.cell lhs rhs), st2))) := by
  simp only [eval_on, Noun.into_cell]
  rw [if_neg hc, if_pos hcell]

lemma eval_on_step {fuel : Nat} {st : CompState} {s op arg : Noun}
    (hc : ¬ (st.tick_cap ≤ st.ticks_used + 1)) (hcell : op.is_cell = false)
    (opc : Nat) (hu8 : op.as_u8 = some opc) :
    eval_on (fuel + 1) st s (.cell op arg) =
      dispatch (eval_on fuel) { st with ticks_used := st.ticks_used + 1 } s opc arg := by
  simp only [eval_on, Noun.into_cell]
  rw [if_neg hc, if_neg (show ¬ (op.is_cell = true) from by simp [hcell])]
  simp only [hu8]

lemma dispatch_recurse_bad {recur : CompState → Noun → Noun → Option (Out CompState)}
    {st : CompState} {s argument : Noun} (h : argument.into_cell = none) :
    dispatch recur st s 2 argument = some (.error .BadRecurseArgument, st) := by
  cases argument with
  | byteAtom x => rfl
  | atom xs => rfl
  | cell l r => exact absurd h (by simp [Noun.into_cell])

/-! ## Claims -/

/-- C7: the small-atom accessor Noun::as_byte is claimed total, with
as_byte(n) = Some(x) iff n is an atom whose value fits in a byte, and in
particular Some(0) on the empty-bytes atom 0.  The code instead panics on
the empty-bytes atom: it slices xs[1..] before the guarded read, and that
slice is out of range for an empty vector.  The first conjunct evaluates the
embedded function at the failing input Noun::Atom(vec![]) and observes the
panic (modelled as the outer none); the other conjuncts show the neighboring
inputs behave as the claim says, pinning the failure to the empty atom. -/
theorem c7_as_byte_empty_atom_panics :
    Noun.as_byte (.atom []) = none ∧
    Noun.as_byte (.byteAtom 0) = some (some 0) ∧
    Noun.as_byte (.atom [5, 0]) = some (some 5) ∧
    Noun.as_byte (.atom [1, 1]) = some none ∧
    Noun.as_byte (.cell (.byteAtom 0) (.byteAtom 0)) = some none :=
  ⟨rfl, rfl, rfl, rfl, rfl⟩

/-- C2 counterexample: the byte atom 5 and the boxed atom with byte vector
[5, 0] have the same numeric value 5, yet Noun::equal returns loobean false
(atom 1), because impl PartialEq compares a ByteAtom with an Atom only when
the vector has length one.  So equality does depend on representation,
refuting the claim as stated. -/
theorem c2_counterexample :
    (Noun.byteAtom 5).atomValue = some 5 ∧
    (Noun.atom [5, 0]).atomValue = some 5 ∧
    Noun.equal (.byteAtom 5) (.atom [5, 0]) = .byteAtom 1 ∧
    Noun.from_bool false = .byteAtom 1 :=
  ⟨rfl, rfl, rfl, rfl⟩

/-- C2 amended: Noun equality is total but representation-dependent on
atoms: a ByteAtom a equals a boxed Atom xs exactly when xs is the one-byte
vector [a]; equal nouns (per the code's structural equality, which does not
canonicalize trailing zero bytes) yield loobean true; and opcode 5
(IS_EQUAL) applied to a formula whose evaluation yields a cell (l, r)
returns equal(l, r), hence loobean true whenever l and r are structurally
equal in that sense, whatever mix of ByteAtom and one-byte Atom
representations is used. -/
theorem c2_equality_amended :
    (∀ (a : Nat) (xs : Bytes),
      Noun.equal (.byteAtom a) (.atom xs) = .byteAtom 0 ↔ xs = [a]) ∧
    (∀ l r : Noun, Noun.eq l r = true → Noun.equal l r = .byteAtom 0) ∧
    (∀ (fuel : Nat) (st : CompState) (s f l r : Noun) (st1 : CompState),
      ¬ (st.tick_cap ≤ st.ticks_used + 1) →
      eval_on fuel { st with ticks_used := st.ticks_used + 1 } s f =
        some (.ok (.cell l r), st1) →
      eval_on (fuel + 1) st s (.cell (.byteAtom 5) f) =
        some (.ok (Noun.equal l r), st1)) := by
  refine ⟨?_, ?_, ?_⟩
  · intro a xs
    constructor
    · intro h
      by_cases heq : Noun.eq (.byteAtom a) (.atom xs) = true
      · simp only [Noun.eq, Bool.and_eq_true, beq_iff_eq] at heq
        obtain ⟨h1, h2⟩ := heq
        cases xs with
        | nil => simp at h1
        | cons x t =>
            cases t with
            | nil =>
                simp only [List.head?] at h2
                rw [Option.some.inj h2]
            | cons y u => simp at h1
      · exfalso
        simp only [Noun.equal, Noun.from_bool] at h
        rw [if_neg heq] at h
        exact absurd (Noun.byteAtom.inj h) (by omega)
    · rintro rfl
      simp [Noun.equal, Noun.from_bool, Noun.eq]
  · intro l r h12
    simp [Noun.equal, Noun.from_bool, h12]
  · intro fuel st s f l r st1 hc h
    rw [eval_on_step hc (rfl : (Noun.byteAtom 5).is_cell = false) 5
      (rfl : (Noun.byteAtom 5).as_u8 = some 5), dispatch_is_equal, bindE_ok h]

/-- C2 witness: equal on the byte atom 7 and the one-byte boxed atom [7] is
loobean true; equal on two equal cells is loobean true; and a concrete
IS_EQUAL reduction on the subject (3, 3) returns equal of the two halves. -/
theorem c2_witness :
    Noun.equal (.byteAtom 7) (.atom [7]) = .byteAtom 0 ∧
    Noun.equal (.cell (.byteAtom 1) (.byteAtom 2)) (.cell (.byteAtom 1) (.byteAtom 2)) =
      .byteAtom 0 ∧
    eval_on 2 ⟨0, 50, engine0⟩ (.cell (.byteAtom 3) (.byteAtom 3))
        (.cell (.byteAtom 5) (.cell (.byteAtom 0) (.byteAtom 1))) =
      some (.ok (Noun.equal (.byteAtom 3) (.byteAtom 3)), ⟨2, 50, engine0⟩) := by
  refine ⟨(c2_equality_amended.1 7 [7]).mpr rfl,
    c2_equality_amended.2.1 _ _ (by decide), ?_⟩
  exact c2_equality_amended.2.2 1 ⟨0, 50, engine0⟩ (.cell (.byteAtom 3) (.byteAtom 3))
    (.cell (.byteAtom 0) (.byteAtom 1)) (.byteAtom 3) (.byteAtom 3) ⟨2, 50, engine0⟩
    (by decide) rfl

/-- C1 counterexample: the literal program (0, (1, 44)) terminates
successfully consuming t = 1 tick (first conjunct), yet the cap k = 1 = t
yields TickLimitExceeded (second conjunct), refuting that any k ≥ t yields
the same result: the cap check fires when the pre-incremented counter
reaches the cap.  The HASH program (0, (10, (1, 0))) terminates successfully
consuming t = 24 ticks (third conjunct), yet the cap k = 5 < t yields the
very same successful result (fourth conjunct), refuting that any k < t
yields TickLimitExceeded: the 20 + length surcharge lands after the final
cap check. -/
theorem c1_counterexample :
    (eval (.cell (.byteAtom 0) (.cell (.byteAtom 1) (.byteAtom 44))) engine0 10 =
        some (.ok (.byteAtom 44), ⟨1, 10, engine0⟩)) ∧
    (eval (.cell (.byteAtom 0) (.cell (.byteAtom 1) (.byteAtom 44))) engine0 1 =
        some (.error .TickLimitExceeded, ⟨1, 1, engine0⟩)) ∧
    (eval (.cell (.byteAtom 0) (.cell (.byteAtom 10) (.cell (.byteAtom 1) (.byteAtom 0))))
        engine0 1000 =
      some (.ok (Noun.from_slice (blake2b512 [0, 0])), ⟨24, 1000, engine0⟩)) ∧
    (eval (.cell (.byteAtom 0) (.cell (.byteAtom 10) (.cell (.byteAtom 1) (.byteAtom 0))))
        engine0 5 =
      some (.ok (Noun.from_slice (blake2b512 [0, 0])), ⟨24, 5, engine0⟩)) :=
  ⟨rfl, rfl, rfl, rfl⟩

/-- C1 amended: if an expression terminates successfully having consumed t
ticks under some tick cap, then any cap k > t yields the same result (and
the same tick count and engine), and any cap k ≤ t yields either that same
successful result (possible when a HASH or STORE_BY_HASH surcharge lands
after the final cap check) or TickLimitExceeded — never any other
outcome. -/
theorem c1_tick_threshold :
    ∀ (e : Noun) (σ : Engine) (c : Nat) (r : Noun) (st1 : CompState),
      eval e σ c = some (.ok r, st1) → ∀ k : Nat,
      (st1.ticks_used < k →
        eval e σ k = some (.ok r, ⟨st1.ticks_used, k, st1.engine⟩)) ∧
      (k ≤ st1.ticks_used →
        eval e σ k = some (.ok r, ⟨st1.ticks_used, k, st1.engine⟩) ∨
          ∃ st2, eval e σ k = some (.error .TickLimitExceeded, st2)) := by
  intro e σ c r st1 h k
  cases e with
  | byteAtom x => exact absurd (congrArg Prod.fst (Option.some.inj h)) (by simp)
  | atom xs => exact absurd (congrArg Prod.fst (Option.some.inj h)) (by simp)
  | cell s f =>
      have h2 : eval_on (c + 1) ⟨0, c, σ⟩ s f = some (.ok r, st1) := h
      have hswap : ∀ out : Out CompState, eval_on (c + 1) ⟨0, k, σ⟩ s f = some out →
          eval_on (k + 1) ⟨0, k, σ⟩ s f = some out := by
        intro out hout
        have hne : eval_on (k + 1) (⟨0, k, σ⟩ : CompState) s f ≠ none :=
          eval_on_total (by omega) (show k ≤ k + 1 + 0 by omega)
        cases ho : eval_on (k + 1) (⟨0, k, σ⟩ : CompState) s f with
        | none => exact absurd ho hne
        | some out2 => exact congrArg some (eval_on_agree hout ho).symm
      rcases eval_on_transfer h2 0 k with hok | ⟨hbnd, st2, htle⟩
      · have hokA : eval_on (c + 1) ⟨0, k, σ⟩ s f =
            some (.ok r, ⟨st1.ticks_used, k, st1.engine⟩) := by
          have h3 : (0 : Nat) + (st1.ticks_used - 0) = st1.ticks_used := by omega
          rw [h3] at hok
          exact hok
        constructor
        · intro _
          exact hswap _ hokA
        · intro _
          exact Or.inl (hswap _ hokA)
      · have hbndA : k ≤ st1.ticks_used := by
          have h3 : k ≤ 0 + (st1.ticks_used - 0) := hbnd
          omega
        constructor
        · intro hgt
          exact absurd hbndA (by omega)
        · intro _
          exact Or.inr ⟨st2, hswap _ htle⟩

/-- C1 witness: the amended theorem applied to the literal run consuming one
tick, at the cap 2 > 1, reproduces the result with the new cap. -/
theorem c1_witness :
    eval (.cell (.byteAtom 0) (.cell (.byteAtom 1) (.byteAtom 44))) engine0 2 =
      some (.ok (.byteAtom 44), ⟨1, 2, engine0⟩) := by
  have h := c1_tick_threshold (.cell (.byteAtom 0) (.cell (.byteAtom 1) (.byteAtom 44)))
    engine0 10 (.byteAtom 44) ⟨1, 10, engine0⟩ rfl 2
  exact h.1 (by decide)

/-- C4: distribute commutes with the evaluator.  If evaluating the subject s
against the cell-headed formula (f g) succeeds, and the two top-level
evaluations of (s, f) and then (s, g) — the latter from the engine the
former left behind — succeed under their own sufficient tick caps, then the
distribute result is exactly the cell of the two results. -/
theorem c4_distribute_commutes :
    ∀ (s f g : Noun) (σ : Engine) (c : Nat) (r : Noun) (stL : CompState)
      (k1 : Nat) (rf : Noun) (st1 : CompState) (k2 : Nat) (rg : Noun) (st2 : CompState),
      f.is_cell = true →
      eval (.cell s (.cell f g)) σ c = some (.ok r, stL) →
      eval (.cell s f) σ k1 = some (.ok rf, st1) →
      eval (.cell s g) st1.engine k2 = some (.ok rg, st2) →
      r = .cell rf rg := by
  intro s f g σ c r stL k1 rf st1 k2 rg st2 hfc hL h1 h2
  have hL2 : eval_on (c + 1) ⟨0, c, σ⟩ s (.cell f g) = some (.ok r, stL) := hL
  by_cases hcap : (⟨0, c, σ⟩ : CompState).tick_cap ≤ (⟨0, c, σ⟩ : CompState).ticks_used + 1
  · rw [eval_on_step_tle hcap] at hL2
    exact absurd (congrArg Prod.fst (Option.some.inj hL2)) (by simp)
  · rw [eval_on_step_distribute hcap hfc] at hL2
    rcases bindE_some_elim hL2 with ⟨e, stE, hx, hpair⟩ | ⟨lhs, stA, hx, hk⟩
    · exact absurd hpair (by simp)
    · rcases bindE_some_elim hk with ⟨e, stE, hx2, hpair⟩ | ⟨rhs, stB, hx2, hk2⟩
      · exact absurd hpair (by simp)
      · obtain ⟨hr, hst⟩ := out_inj hk2
        have h1A : eval_on (k1 + 1) ⟨0, k1, σ⟩ s f = some (.ok rf, st1) := h1
        obtain ⟨hlr, hengA, _⟩ := eval_on_det hx h1A rfl
        have h2A : eval_on (k2 + 1) ⟨0, k2, st1.engine⟩ s g = some (.ok rg, st2) := h2
        obtain ⟨hrr, _, _⟩ := eval_on_det hx2 h2A hengA
        have hcell := Except.ok.inj hr
        rw [← hcell, hlr, hrr]

/-- C4 witness: the theorem applied to the distribute program
(22, ((1, 10), (1, 20))) and its two component runs. -/
theorem c4_witness : (Noun.cell (.byteAtom 10) (.byteAtom 20)) = .cell (.byteAtom 10) (.byteAtom 20) :=
  c4_distribute_commutes (.byteAtom 22) (.cell (.byteAtom 1) (.byteAtom 10))
    (.cell (.byteAtom 1) (.byteAtom 20)) engine0 50 (.cell (.byteAtom 10) (.byteAtom 20))
    ⟨3, 50, engine0⟩ 50 (.byteAtom 10) ⟨1, 50, engine0⟩ 50 (.byteAtom 20) ⟨1, 50, engine0⟩
    rfl rfl rfl rfl

/-- C5: opcode 2 (RECURSE).  First conjunct: if evaluating s against the
formula (2, (b, c)) succeeds with result r, then b and c each evaluate
against the same subject s (threading the engine), and evaluating the result
of c as a formula against the result of b as subject yields exactly r.
Second conjunct: when the argument of opcode 2 is not a pair, the reduction
fails with BadRecurseArgument after the single tick of the step. -/
theorem c5_recurse :
    (∀ (s b c : Noun) (σ : Engine) (cap : Nat) (r : Noun) (stF : CompState),
      eval (.cell s (.cell (.byteAtom 2) (.cell b c))) σ cap = some (.ok r, stF) →
      ∃ (rb : Noun) (stb : CompState) (rc : Noun) (stc : CompState)
        (kb kc kf : Nat) (stf : CompState),
        eval (.cell s b) σ kb = some (.ok rb, stb) ∧
        eval (.cell s c) stb.engine kc = some (.ok rc, stc) ∧
        eval (.cell rb rc) stc.engine kf = some (.ok r, stf) ∧
        stf.engine = stF.engine) ∧
    (∀ (s x : Noun) (σ : Engine) (cap : Nat), x.into_cell = none → 1 < cap →
      eval (.cell s (.cell (.byteAtom 2) x)) σ cap =
        some (.error .BadRecurseArgument, ⟨1, cap, σ⟩)) := by
  constructor
  · intro s b c σ cap r stF h
    have h2 : eval_on (cap + 1) ⟨0, cap, σ⟩ s (.cell (.byteAtom 2) (.cell b c)) =
        some (.ok r, stF) := h
    by_cases hcap : (⟨0, cap, σ⟩ : CompState).tick_cap ≤
        (⟨0, cap, σ⟩ : CompState).ticks_used + 1
    · rw [eval_on_step_tle hcap] at h2
      exact absurd (congrArg Prod.fst (Option.some.inj h2)) (by simp)
    · rw [eval_on_step hcap (rfl : (Noun.byteAtom 2).is_cell = false) 2
          (rfl : (Noun.byteAtom 2).as_u8 = some 2), dispatch_recurse] at h2
      rcases bindE_some_elim h2 with ⟨e, stE, hx, hpair⟩ | ⟨rb, stb, hx, hk⟩
      · exact absurd hpair (by simp)
      · rcases bindE_some_elim hk with ⟨e, stE, hx2, hpair⟩ | ⟨rc, stc, hx2, hk2⟩
        · exact absurd hpair (by simp)
        · have n1 := eval_on_to_eval hx
          have n2 := eval_on_to_eval hx2
          have n3 := eval_on_to_eval hk2
          exact ⟨rb, _, rc, _, _, _, _, _, n1, n2, n3, rfl⟩
  · intro s x σ cap hx hcap
    show eval_on (cap + 1) ⟨0, cap, σ⟩ s (.cell (.byteAtom 2) x) =
      some (.error .BadRecurseArgument, ⟨1, cap, σ⟩)
    rw [eval_on_step
        (show ¬ ((⟨0, cap, σ⟩ : CompState).tick_cap ≤
            (⟨0, cap, σ⟩ : CompState).ticks_used + 1) from by
          show ¬ (cap ≤ 0 + 1); omega)
        (rfl : (Noun.byteAtom 2).is_cell = false) 2
        (rfl : (Noun.byteAtom 2).as_u8 = some 2),
      dispatch_recurse_bad hx]

/-- C5 witness: the theorem applied to the recurse program of the source
tests, ((123, (0, 1)), 2, (0, 2), (0, 3)), and to a non-pair argument. -/
theorem c5_witness :
    (∃ (rb : Noun) (stb : CompState) (rc : Noun) (stc : CompState)
        (kb kc kf : Nat) (stf : CompState),
      eval (.cell (.cell (.byteAtom 123) (.cell (.byteAtom 0) (.byteAtom 1)))
          (.cell (.byteAtom 0) (.byteAtom 2))) engine0 kb = some (.ok rb, stb) ∧
      eval (.cell (.cell (.byteAtom 123) (.cell (.byteAtom 0) (.byteAtom 1)))
          (.cell (.byteAtom 0) (.byteAtom 3))) stb.engine kc = some (.ok rc, stc) ∧
      eval (.cell rb rc) stc.engine kf = some (.ok (.byteAtom 123), stf) ∧
      stf.engine = (⟨4, 50, engine0⟩ : CompState).engine) ∧
    (eval (.cell (.byteAtom 0) (.cell (.byteAtom 2) (.byteAtom 5))) engine0 50 =
      some (.error .BadRecurseArgument, ⟨1, 50, engine0⟩)) :=
  ⟨c5_recurse.1 (.cell (.byteAtom 123) (.cell (.byteAtom 0) (.byteAtom 1)))
      (.cell (.byteAtom 0) (.byteAtom 2)) (.cell (.byteAtom 0) (.byteAtom 3))
      engine0 50 (.byteAtom 123) ⟨4, 50, engine0⟩ rfl,
    c5_recurse.2 (.byteAtom 0) (.byteAtom 5) engine0 50 rfl (by omega)⟩

/-- C3 counterexample: the argument formula (1, 5) of opcode 12 evaluates to
the atom 5 in its byte-atom representation (first two conjuncts), yet
RETRIEVE_BY_HASH fails with BadArgument instead of forming the storage key
and calling load: eval.rs matches only the boxed Atom variant
(if let Noun::Atom(x)), and the ByteAtom representation of an atom falls to
the else branch.  Under the claim, the run should have produced the
loobean-false atom 1 (a miss on the empty store). -/
theorem c3_counterexample :
    (eval (.cell (.byteAtom 0) (.cell (.byteAtom 1) (.byteAtom 5))) engine0 100 =
        some (.ok (.byteAtom 5), ⟨1, 100, engine0⟩)) ∧
    (Noun.byteAtom 5).atomValue = some 5 ∧
    (eval (.cell (.byteAtom 0) (.cell (.byteAtom 12) (.cell (.byteAtom 1) (.byteAtom 5))))
        engine0 100 = some (.error .BadArgument, ⟨2, 100, engine0⟩)) :=
  ⟨rfl, rfl, rfl⟩

/-- C3 amended: opcode 12 (RETRIEVE_BY_HASH).  If the argument formula
evaluates (as a top-level run from the same engine) to a result r, then
under a sufficient cap the opcode reduces as follows: if r is an atom in the
boxed (Atom) representation with bytes x, the storage key 0x01 :: x is
looked up — a hit deserializes to cell(atom 0, decoded) or fails
StorageCorrupt, a miss returns atom 1; if r is a cell, or an atom in the
ByteAtom representation, the reduction fails with BadArgument. -/
theorem c3_retrieve_amended :
    ∀ (s f : Noun) (σ : Engine) (k : Nat) (r : Noun) (st1 : CompState),
      eval (.cell s f) σ k = some (.ok r, st1) →
      ∃ (c : Nat) (st2 : CompState),
        eval (.cell s (.cell (.byteAtom 12) f)) σ c =
          some ((match r with
                 | .atom x =>
                     (match st1.engine.load (1 :: x) with
                      | some xs =>
                          (match deserialize xs with
                           | .ok decoded => .ok (.cell (.byteAtom 0) decoded)
                           | .error _ => .error .StorageCorrupt)
                      | none => .ok (.byteAtom 1))
                 | _ => (.error .BadArgument : Except EvalError Noun)), st2) := by
  intro s f σ k r st1 h
  have h2 : eval_on (k + 1) ⟨0, k, σ⟩ s f = some (.ok r, st1) := h
  rcases eval_on_transfer h2 1 (st1.ticks_used + 2) with hok | ⟨hbnd, stX, htle⟩
  · have hokA : eval_on (k + 1) ⟨1, st1.ticks_used + 2, σ⟩ s f =
        some (.ok r, ⟨1 + st1.ticks_used, st1.ticks_used + 2, st1.engine⟩) := by
      have h3 : (1 : Nat) + (st1.ticks_used - 0) = 1 + st1.ticks_used := by omega
      rw [h3] at hok
      exact hok
    have hne : eval_on (st1.ticks_used + 2)
        (⟨1, st1.ticks_used + 2, σ⟩ : CompState) s f ≠ none :=
      eval_on_total (by omega) (show st1.ticks_used + 2 ≤ st1.ticks_used + 2 + 1 by omega)
    have harg : eval_on (st1.ticks_used + 2) ⟨1, st1.ticks_used + 2, σ⟩ s f =
        some (.ok r, ⟨1 + st1.ticks_used, st1.ticks_used + 2, st1.engine⟩) := by
      cases ho : eval_on (st1.ticks_used + 2)
          (⟨1, st1.ticks_used + 2, σ⟩ : CompState) s f with
      | none => exact absurd ho hne
      | some out => exact congrArg some (eval_on_agree ho hokA)
    refine ⟨st1.ticks_used + 2, ⟨1 + st1.ticks_used, st1.ticks_used + 2, st1.engine⟩, ?_⟩
    show eval_on (st1.ticks_used + 2 + 1) ⟨0, st1.ticks_used + 2, σ⟩ s
        (.cell (.byteAtom 12) f) = _
    rw [eval_on_step
        (show ¬ ((⟨0, st1.ticks_used + 2, σ⟩ : CompState).tick_cap ≤
            (⟨0, st1.ticks_used + 2, σ⟩ : CompState).ticks_used + 1) from by
          show ¬ (st1.ticks_used + 2 ≤ 0 + 1); omega)
        (rfl : (Noun.byteAtom 12).is_cell = false) 12
        (rfl : (Noun.byteAtom 12).as_u8 = some 12)]
    show dispatch (eval_on (st1.ticks_used + 2)) ⟨1, st1.ticks_used + 2, σ⟩ s 12 f = _
    rw [dispatch_retrieve, bindE_ok harg]
    cases r with
    | atom x =>
        cases hload : st1.engine.load (1 :: x) with
        | some xs =>
            cases hdes : deserialize xs with
            | ok decoded => simp [hload, hdes, Noun.from_bool]
            | error u => simp only [hload, hdes]
        | none => simp [hload, Noun.from_bool]
    | byteAtom b2 => rfl
    | cell l rr => rfl
  · have hbndA : st1.ticks_used + 2 ≤ 1 + (st1.ticks_used - 0) := hbnd
    exact absurd hbndA (by omega)

/-- C3 witness: the amended theorem applied to the argument run returning
the boxed atom [7] from a store holding key 0x01 :: [7]; the retrieval
returns cell(atom 0, atom [42]). -/
theorem c3_witness :
    ∃ (c : Nat) (st2 : CompState),
      eval (.cell (.byteAtom 0) (.cell (.byteAtom 12) (.cell (.byteAtom 1) (.atom [7]))))
          (Engine.mk [([1, 7], [0, 1, 42])] []) c =
        some (.ok (.cell (.byteAtom 0) (.atom [42])), st2) :=
  c3_retrieve_amended (.byteAtom 0) (.cell (.byteAtom 1) (.atom [7]))
    (Engine.mk [([1, 7], [0, 1, 42])] []) 100 (.atom [7])
    ⟨1, 100, Engine.mk [([1, 7], [0, 1, 42])] []⟩ rfl

/-- C6: every key the core ever passes to the side effector's store is the
tag byte 0x01 followed by the 64-byte BLAKE2b digest of the stored value
(hence exactly 65 bytes long), and the stored value is the serializer output
for some noun — this holds for every entry any top-level evaluation appends
to the store trace.  Moreover a successful opcode 11 (STORE_BY_HASH)
reduction returns loobean true, the atom 0. -/
theorem c6_store_key_format :
    (∀ (e : Noun) (σ : Engine) (L : Nat) (out : Except EvalError Noun) (st1 : CompState),
      eval e σ L = some (out, st1) →
      ∀ kv ∈ st1.engine.storeLog, kv ∈ σ.storeLog ∨
        (kv.1 = 1 :: blake2b512 kv.2 ∧ kv.1.length = 65 ∧
          ∃ n, serializeE n = .ok kv.2)) ∧
    (∀ (fuel : Nat) (st : CompState) (s f v : Noun) (st1 : CompState),
      eval_on fuel st s (.cell (.byteAtom 11) f) = some (.ok v, st1) → v = .byteAtom 0) := by
  constructor
  · intro e σ L out st1 h kv hkv
    cases e with
    | cell s f =>
        have h2 : eval_on (L + 1) ⟨0, L, σ⟩ s f = some (out, st1) := h
        obtain ⟨_, _, _, hlog⟩ := eval_on_basic h2
        rcases hlog kv hkv with hin | ⟨hkey, n, hser⟩
        · exact Or.inl hin
        · refine Or.inr ⟨hkey, ?_, n, hser⟩
          rw [hkey]
          simp [blake2b512]
    | byteAtom x =>
        obtain ⟨ho, hst⟩ := out_inj h
        subst hst
        exact Or.inl hkv
    | atom xs =>
        obtain ⟨ho, hst⟩ := out_inj h
        subst hst
        exact Or.inl hkv
  · intro fuel st s f v st1 h
    cases fuel with
    | zero => exact absurd h (by simp [eval_on])
    | succ fuel =>
        by_cases hcap : st.tick_cap ≤ st.ticks_used + 1
        · rw [eval_on_step_tle hcap] at h
          exact absurd (congrArg Prod.fst (Option.some.inj h)) (by simp)
        · rw [eval_on_step hcap (rfl : (Noun.byteAtom 11).is_cell = false) 11
              (rfl : (Noun.byteAtom 11).as_u8 = some 11), dispatch_store] at h
          rcases bindE_some_elim h with ⟨e, stE, hx, hpair⟩ | ⟨vb, stb, hx, hk⟩
          · exact absurd hpair (by simp)
          · split at hk
            · exact absurd (congrArg Prod.fst (Option.some.inj hk)) (by simp)
            · have hfst := congrArg Prod.fst (Option.some.inj hk)
              have hv := Except.ok.inj hfst
              rw [← hv]
              rfl

/-- C6 witness: the theorem applied to a concrete STORE_BY_HASH run storing
the atom 21 (serialized as the bytes 0, 1, 21): its single trace entry has
the tagged-digest key of length 65 and the serialized value, and the run
returns the atom 0. -/
theorem c6_witness :
    ((1 :: blake2b512 [0, 1, 21], ([0, 1, 21] : Bytes)) ∈ engine0.storeLog ∨
      ((1 :: blake2b512 [0, 1, 21] : Bytes) = 1 :: blake2b512 [0, 1, 21] ∧
        (1 :: blake2b512 [0, 1, 21] : Bytes).length = 65 ∧
        ∃ n, serializeE n = .ok ([0, 1, 21] : Bytes))) ∧
    (Noun.byteAtom 0 : Noun) = .byteAtom 0 := by
  constructor
  · exact c6_store_key_format.1
      (.cell (.byteAtom 21) (.cell (.byteAtom 11) (.cell (.byteAtom 0) (.byteAtom 1))))
      engine0 1000 (.ok (.byteAtom 0))
      ⟨25, 1000, Engine.mk [(1 :: blake2b512 [0, 1, 21], [0, 1, 21])]
        [(1 :: blake2b512 [0, 1, 21], [0, 1, 21])]⟩ rfl
      (1 :: blake2b512 [0, 1, 21], [0, 1, 21]) (List.mem_singleton.mpr rfl)
  · exact c6_store_key_format.2 10 ⟨0, 100, engine0⟩ (.byteAtom 21)
      (.cell (.byteAtom 0) (.byteAtom 1)) (.byteAtom 0)
      ⟨25, 100, Engine.mk [(1 :: blake2b512 [0, 1, 21], [0, 1, 21])]
        [(1 :: blake2b512 [0, 1, 21], [0, 1, 21])]⟩ rfl

/-- C8: the tick accounting of the reducer is exactly the cost model of the
spec.  Every successful-or-failing run that returns a result spends its
ticks as one tick per reduction step plus 20 + serialized byte length for
each HASH or STORE_BY_HASH surcharge: the run is reproduced by the
instrumented cost evaluator with some step count and surcharge-length list,
and the final tick counter equals the starting counter plus the step count
plus the sum of (20 + length) over the surcharges — so no other opcode
imposes any variable cost. -/
theorem c8_cost_model :
    ∀ (fuel t cap : Nat) (σ : Engine) (s f : Noun) (r : Except EvalError Noun)
      (tf : Nat) (σf : Engine),
      eval_on fuel ⟨t, cap, σ⟩ s f = some (r, ⟨tf, cap, σf⟩) →
      ∃ cst1, eval_on_cost fuel t cap ⟨0, [], σ⟩ s f = some (r, cst1) ∧
        cst1.engine = σf ∧
        tf = t + cst1.steps + (cst1.lens.map (fun l => 20 + l)).sum := by
  intro fuel t cap σ s f r tf σf h
  obtain ⟨cst1, hc, _, ht1, he1⟩ := eval_on_cost_sim h rfl
    (show t = costTicks t ⟨0, [], σ⟩ by simp [costTicks]) rfl
  exact ⟨cst1, hc, he1.symm, ht1⟩

/-- C8 witness: the theorem applied to the HASH run (0, (10, (1, 0))), which
spends 24 ticks: 2 reduction steps plus the surcharge 20 + 2 for the 2-byte
serialization of the atom 0. -/
theorem c8_witness :
    ∃ cst1, eval_on_cost 10 0 1000 ⟨0, [], engine0⟩ (.byteAtom 0)
        (.cell (.byteAtom 10) (.cell (.byteAtom 1) (.byteAtom 0))) =
      some (.ok (Noun.from_slice (blake2b512 [0, 0])), cst1) ∧
      cst1.engine = engine0 ∧
      24 = 0 + cst1.steps + (cst1.lens.map (fun l => 20 + l)).sum :=
  c8_cost_model 10 0 1000 engine0 _ _ _ 24 engine0 rfl

/-- C9: the entry point eval fails with Something exactly when the
expression is not a cell — a non-cell expression yields Something without
consuming ticks, and no reduction of a cell expression can ever surface
Something — and a reduction step whose formula is an atom fails with
AtomicFormula after charging its tick. -/
theorem c9_entry_and_atomic :
    (∀ (e : Noun) (σ : Engine) (L : Nat), e.is_cell = false →
      eval e σ L = some (.error .Something, ⟨0, L, σ⟩)) ∧
    (∀ (e : Noun) (σ : Engine) (L : Nat) (r : Except EvalError Noun) (st1 : CompState),
      eval e σ L = some (r, st1) → r = .error .Something → e.is_cell = false) ∧
    (∀ (fuel : Nat) (st : CompState) (s f : Noun), f.is_cell = false →
      ¬ (st.tick_cap ≤ st.ticks_used + 1) →
      eval_on (fuel + 1) st s f =
        some (.error .AtomicFormula, { st with ticks_used := st.ticks_used + 1 })) := by
  refine ⟨?_, ?_, ?_⟩
  · intro e σ L he
    cases e with
    | byteAtom x => rfl
    | atom xs => rfl
    | cell l r => simp [Noun.is_cell] at he
  · intro e σ L r st1 h hr
    cases e with
    | byteAtom x => rfl
    | atom xs => rfl
    | cell s f =>
        have h2 : eval_on (L + 1) ⟨0, L, σ⟩ s f = some (r, st1) := h
        obtain ⟨_, _, hns, _⟩ := eval_on_basic h2
        exact absurd hr hns
  · intro fuel st s f hf hc
    exact eval_on_step_atomic hc (into_cell_eq_none.mpr hf)

/-- C9 witness: the theorem applied to a non-cell expression and to an
atomic-formula step. -/
theorem c9_witness :
    (eval (.byteAtom 7) engine0 5 = some (.error .Something, ⟨0, 5, engine0⟩)) ∧
    ((Noun.byteAtom 7).is_cell = false) ∧
    (eval_on 1 ⟨0, 50, engine0⟩ (.byteAtom 0) (.byteAtom 9) =
      some (.error .AtomicFormula, ⟨1, 50, engine0⟩)) := by
  refine ⟨c9_entry_and_atomic.1 (.byteAtom 7) engine0 5 rfl,
    c9_entry_and_atomic.2.1 (.byteAtom 7) engine0 5 (.error .Something) ⟨0, 5, engine0⟩
      rfl rfl, ?_⟩
  exact c9_entry_and_atomic.2.2 0 ⟨0, 50, engine0⟩ (.byteAtom 0) (.byteAtom 9) rfl (by decide)

/-- C10: in the distribute rule and in opcode 2 (RECURSE) the first
sub-formula is evaluated before the second, both against the current
subject.  If the first evaluation fails, the whole reduction returns that
very error with the computation state exactly as the failed sub-evaluation
left it — so the second sub-formula is never evaluated, no further tick is
charged and no further side-effect call is made.  The middle conjunct
records the successful ordering: the second sub-evaluation starts from the
state the first one produced. -/
theorem c10_order_and_short_circuit :
    (∀ (fuel : Nat) (st : CompState) (s hd arg : Noun) (e : EvalError) (stE : CompState),
      hd.is_cell = true → ¬ (st.tick_cap ≤ st.ticks_used + 1) →
      eval_on fuel { st with ticks_used := st.ticks_used + 1 } s hd = some (.error e, stE) →
      eval_on (fuel + 1) st s (.cell hd arg) = some (.error e, stE)) ∧
    (∀ (fuel : Nat) (st : CompState) (s hd arg lhs : Noun) (st1 : CompState) (rhs : Noun)
        (st2 : CompState),
      hd.is_cell = true → ¬ (st.tick_cap ≤ st.ticks_used + 1) →
      eval_on fuel { st with ticks_used := st.ticks_used + 1 } s hd = some (.ok lhs, st1) →
      eval_on fuel st1 s arg = some (.ok rhs, st2) →
      eval_on (fuel + 1) st s (.cell hd arg) = some (.ok (.cell lhs rhs), st2)) ∧
    (∀ (fuel : Nat) (st : CompState) (s b c : Noun) (e : EvalError) (stE : CompState),
      ¬ (st.tick_cap ≤ st.ticks_used + 1) →
      eval_on fuel { st with ticks_used := st.ticks_used + 1 } s b = some (.error e, stE) →
      eval_on (fuel + 1) st s (.cell (.byteAtom 2) (.cell b c)) = some (.error e, stE)) := by
  refine ⟨?_, ?_, ?_⟩
  · intro fuel st s hd arg e stE hcell hc hx
    rw [eval_on_step_distribute hc hcell]
    exact bindE_err hx
  · intro fuel st s hd arg lhs st1 rhs st2 hcell hc hx hx2
    rw [eval_on_step_distribute hc hcell, bindE_ok hx, bindE_ok hx2]
  · intro fuel st s b c e stE hc hx
    rw [eval_on_step hc (rfl : (Noun.byteAtom 2).is_cell = false) 2
        (rfl : (Noun.byteAtom 2).as_u8 = some 2), dispatch_recurse]
    exact bindE_err hx

/-- C10 witness: the theorem applied to a distribute whose head fails with
BadOpcode 99 (the argument is never evaluated and the failure state is
returned unchanged), to a successful distribute of two literals, and to a
RECURSE whose first sub-formula fails the same way. -/
theorem c10_witness :
    (eval_on 6 ⟨0, 50, engine0⟩ (.byteAtom 0)
        (.cell (.cell (.byteAtom 99) (.byteAtom 0)) (.byteAtom 1)) =
      some (.error (.BadOpcode 99), ⟨2, 50, engine0⟩)) ∧
    (eval_on 6 ⟨0, 50, engine0⟩ (.byteAtom 0)
        (.cell (.cell (.byteAtom 1) (.byteAtom 3)) (.cell (.byteAtom 1) (.byteAtom 4))) =
      some (.ok (.cell (.byteAtom 3) (.byteAtom 4)), ⟨3, 50, engine0⟩)) ∧
    (eval_on 6 ⟨0, 50, engine0⟩ (.byteAtom 0)
        (.cell (.byteAtom 2) (.cell (.cell (.byteAtom 99) (.byteAtom 0)) (.byteAtom 1))) =
      some (.error (.BadOpcode 99), ⟨2, 50, engine0⟩)) := by
  refine ⟨?_, ?_, ?_⟩
  · exact c10_order_and_short_circuit.1 5 ⟨0, 50, engine0⟩ (.byteAtom 0)
      (.cell (.byteAtom 99) (.byteAtom 0)) (.byteAtom 1) (.BadOpcode 99) ⟨2, 50, engine0⟩
      rfl (by decide) rfl
  · exact c10_order_and_short_circuit.2.1 5 ⟨0, 50, engine0⟩ (.byteAtom 0)
      (.cell (.byteAtom 1) (.byteAtom 3)) (.cell (.byteAtom 1) (.byteAtom 4))
      (.byteAtom 3) ⟨2, 50, engine0⟩ (.byteAtom 4) ⟨3, 50, engine0⟩
      rfl (by decide) rfl rfl
  · exact c10_order_and_short_circuit.2.2 5 ⟨0, 50, engine0⟩ (.byteAtom 0)
      (.cell (.byteAtom 99) (.byteAtom 0)) (.byteAtom 1) (.BadOpcode 99) ⟨2, 50, engine0⟩
      (by decide) rfl
